import Mathlib

/-! # Shallow embedding of the skip list (src/skiplist/skiplist.py)

Nodes are modelled by the values they store.  A level of the skip list is the
list of stored values along its forward links, the sentinel excluded; `none`
stands for a level's sentinel wherever the code handles a node that may be the
sentinel.  Pointer identity between nodes of one level is modelled by the
comparator's equality test, which is exact on every state whose levels hold
pairwise key-inequivalent values (an invariant proved below).

The comparator is the duck-typed `operator`-style object received by
`SkipList.__init__`; the development instantiates it with `keyCmp f`, the
comparator induced by a key projection into a linear order (`natCmp` — the
default `operator` module — is `keyCmp id`).  The probabilistic
`random_height` input is modelled by passing the generated height to `insert`
explicitly.
-/

/-- The duck-typed comparator: the four `operator`-module functions the
source calls (`le`, `eq`, `ne`, `gt`). -/
structure Cmp (α : Type) where
  le : α → α → Bool
  eq : α → α → Bool
  ne : α → α → Bool
  gt : α → α → Bool

/-- Comparator that compares values through a key projection `f`. -/
def keyCmp {α β : Type} [LinearOrder β] (f : α → β) : Cmp α where
  le a b := decide (f a ≤ f b)
  eq a b := decide (f a = f b)
  ne a b := decide (f a ≠ f b)
  gt a b := decide (f b < f a)

/-- The default comparator (the `operator` module itself): natural order. -/
def natCmp (α : Type) [LinearOrder α] : Cmp α := keyCmp id

/-- Fuel-driven floor of the base-2 logarithm (structural recursion, so that
the kernel can evaluate it on concrete states); proved equal to `Nat.log 2`
below. -/
def log2Aux : Nat → Nat → Nat
  | 0, _ => 0
  | fuel + 1, n => if 2 ≤ n then log2Aux fuel (n / 2) + 1 else 0

/-- `int(log2(n))` of the source: the floor of the base-2 logarithm. -/
def log2floor (n : Nat) : Nat := log2Aux n n

instance {ε σ : Type} [DecidableEq ε] [DecidableEq σ] : DecidableEq (Except ε σ)
  | .error a, .error b =>
      if h : a = b then .isTrue (by rw [h]) else .isFalse fun hc => h (Except.error.inj hc)
  | .error _, .ok _ => .isFalse fun hc => Except.noConfusion hc
  | .ok _, .error _ => .isFalse fun hc => Except.noConfusion hc
  | .ok a, .ok b =>
      if h : a = b then .isTrue (by rw [h]) else .isFalse fun hc => h (Except.ok.inj hc)

/-- State of `SkipList`: the base level (level 0) of stored values in forward
order, the upper levels (level 1 upward, bottom first), and the recorded
`__size`.  `base :: uppers` corresponds to `self.__sentinels`, one entry per
existing level. -/
structure SkipList (α : Type) where
  base : List α
  uppers : List (List α)
  size : Nat
deriving DecidableEq

namespace SkipList

/-- A freshly constructed container: one self-linked base sentinel, size 0. -/
def empty {α : Type} : SkipList α := ⟨[], [], 0⟩

/-- `__iter__`: walk forward links from `sentinels[0].next` until the
sentinel — this yields exactly the base level. -/
def iter {α : Type} (s : SkipList α) : List α := s.base

/-- `__reversed__`: walk backward links from `sentinels[0].prev` until the
sentinel — the base level backwards. -/
def reversedIter {α : Type} (s : SkipList α) : List α := s.base.reverse

end SkipList

/-- The node of `w`'s tower within level `l` (reached by a `below` link):
the unique node whose value is comparator-equal to `w`. -/
def towerNode {α : Type} (c : Cmp α) (w : α) (l : List α) : Option α :=
  (l.dropWhile fun x => !(c.eq x w)).head?

/-- The part of level `l` strictly after `w`'s tower node. -/
def towerRest {α : Type} (c : Cmp α) (w : α) (l : List α) : List α :=
  (l.dropWhile fun x => !(c.eq x w)).drop 1

/-- The stop node of the forward scan
`while next_value is not sentinel and le(next_value, value): advance`
run over the segment `seg`: the last node of the longest all-`le` front. -/
def scanStop {α : Type} (c : Cmp α) (qv : α) (seg : List α) : Option α :=
  (seg.takeWhile fun x => c.le x qv).getLast?

/-- One level of `__trace`: descend from `start` (the stop node of the level
above, `none` = sentinel) into level `l`, scan forward, report the node where
the scan stops (the descended-to node itself when no advance happens). -/
def levelStop {α : Type} (c : Cmp α) (qv : α) (start : Option α) (l : List α) :
    Option α :=
  let anchor : Option α :=
    match start with
    | none => none
    | some w => towerNode c w l
  let seg : List α :=
    match start with
    | none => l
    | some w => towerRest c w l
  match scanStop c qv seg with
  | none => anchor
  | some x => some x

/-- `__trace`, one level at a time, top level first.  `start` is the node the
scan descended from at the previous level (`none` = sentinel): the scan
resumes below it and records where it stops; the recursion then descends. -/
def traceFrom {α : Type} (c : Cmp α) (qv : α) : List (List α) → Option α → List (Option α)
  | [], _ => []
  | l :: rest, start =>
      let stop := levelStop c qv start l
      stop :: traceFrom c qv rest stop

/-- `__trace(value)`: the per-level path, topmost level first, base last. -/
def SkipList.trace {α : Type} (c : Cmp α) (s : SkipList α) (qv : α) : List (Option α) :=
  traceFrom c qv (s.uppers.reverse ++ [s.base]) none

/-- The last entry of the trace path (the base-level stop node). -/
def SkipList.traceBase {α : Type} (c : Cmp α) (s : SkipList α) (qv : α) : Option α :=
  ((s.trace c qv).getLast?).getD none

/-- `node.next` within the ring of level `l` (`none` = the sentinel):
the sentinel's successor is the head; a value node's successor is the node
after its (unique) position, the sentinel if it is last. -/
def ringNext {α : Type} (c : Cmp α) (l : List α) : Option α → Option α
  | none => l.head?
  | some w => (towerRest c w l).head?

/-- `node.prev` of value node `w` within the base ring: the node before `w`'s
position, the sentinel (`none`) if `w` is first. -/
def nodePrev {α : Type} (c : Cmp α) (w : α) (l : List α) : Option α :=
  (l.takeWhile fun x => !(c.eq x w)).getLast?

/-- Node identity (`is` / `!=` tests on nodes of one level). -/
def optEq {α : Type} (c : Cmp α) : Option α → Option α → Bool
  | none, none => true
  | some a, some b => c.eq a b
  | _, _ => false

/-- `__ceiling(key, inclusive)`: take the traced base node; keep it when its
value equals the key and `inclusive` holds, otherwise move forward once.
The comparator's `eq` is `False` on the sentinel. -/
def SkipList.ceilNode {α : Type} (c : Cmp α) (s : SkipList α) (qv : α)
    (inclusive : Bool) : Option α :=
  match s.traceBase c qv with
  | some w => if c.eq w qv && inclusive then some w else ringNext c s.base (some w)
  | none => s.base.head?

/-- `__floor(key, inclusive)`: take the traced base node; move backward once
when its value equals the key and `inclusive` fails, otherwise keep it. -/
def SkipList.floorNode {α : Type} (c : Cmp α) (s : SkipList α) (qv : α)
    (inclusive : Bool) : Option α :=
  match s.traceBase c qv with
  | some w => if c.eq w qv && !inclusive then nodePrev c w s.base else some w
  | none => none

/-- `ceiling(value, inclusive, default)`: `LookupError` (modelled by
`.error ()`) when the node is the sentinel and no default was supplied. -/
def SkipList.ceiling {α : Type} (c : Cmp α) (s : SkipList α) (qv : α)
    (inclusive : Bool) (default : Option α) : Except Unit α :=
  match s.ceilNode c qv inclusive with
  | some v => .ok v
  | none =>
      match default with
      | some d => .ok d
      | none => .error ()

/-- `floor(value, inclusive, default)`. -/
def SkipList.floor {α : Type} (c : Cmp α) (s : SkipList α) (qv : α)
    (inclusive : Bool) (default : Option α) : Except Unit α :=
  match s.floorNode c qv inclusive with
  | some v => .ok v
  | none =>
      match default with
      | some d => .ok d
      | none => .error ()

/-- `__range(current, end)`: yield forward from `current` until the sentinel
or the `end` node is reached (node identity). -/
def rangeFrom {α : Type} (c : Cmp α) (base : List α) : Option α → Option α → List α
  | none, _ => []
  | some v, fin =>
      let seg := base.dropWhile fun x => !(c.eq x v)
      match fin with
      | none => seg
      | some w => seg.takeWhile fun x => !(c.eq x w)

/-- `range(start, end, include_start, include_end)`.  The guard
`end is not sentinels[0] and gt(start.value, end.value)` evaluates
`gt` on the sentinel's value when `start` is the sentinel while `end` is not:
with a real comparator this comparison raises `TypeError`, modelled by
`none`. -/
def SkipList.range {α : Type} (c : Cmp α) (s : SkipList α) (a b : α)
    (inclS inclE : Bool) : Option (List α) :=
  let st := s.ceilNode c a inclS
  let en := ringNext c s.base (s.floorNode c b inclE)
  match en with
  | none => some (rangeFrom c s.base st none)
  | some ev =>
      match st with
      | none => none
      | some sv =>
          if c.gt sv ev then some (rangeFrom c s.base st st)
          else some (rangeFrom c s.base st (some ev))

/-- `_link3(node, new_node, node.next)` at a level: splice `v` right after
the (unique) node comparator-equal to `w`. -/
def insertAfterNode {α : Type} (c : Cmp α) (w v : α) : List α → List α
  | [] => [v]
  | x :: xs => if c.eq x w then x :: v :: xs else x :: insertAfterNode c w v xs

/-- Splice `v` after the node `p` of a level (`none` = after the sentinel,
i.e. at the front). -/
def insertAfter {α : Type} (c : Cmp α) (p : Option α) (v : α) (l : List α) : List α :=
  match p with
  | none => v :: l
  | some w => insertAfterNode c w v l

/-- `node.value = value`: overwrite the stored value of the (unique) node
comparator-equal to `w`. -/
def replaceNode {α : Type} (c : Cmp α) (w v : α) : List α → List α
  | [] => []
  | x :: xs => if c.eq x w then v :: xs else x :: replaceNode c w v xs

/-- Splice `v` at each level of `ls` after the matching trace entry of `ps`
(both bottom-up); levels beyond `ps` are untouched. -/
def spliceLevels {α : Type} (c : Cmp α) (v : α) :
    List (Option α) → List (List α) → List (List α)
  | p :: ps, l :: ls => insertAfter c p v l :: spliceLevels c v ps ls
  | _, ls => ls

/-- The create branch of `insert`: clamp the generated height, append the
missing sentinel rows (empty levels, with the new sentinels prepended to the
intermediates), splice the base node, then one tower node per level `1..H`. -/
def SkipList.insertNew {α : Type} (c : Cmp α) (s : SkipList α) (gen : Nat) (v : α)
    (path : List (Option α)) : SkipList α :=
  let height := min gen (8 + log2floor (s.size + 1))
  let numUpper := s.uppers.length
  let ints : List (Option α) :=
    path.dropLast.reverse ++ List.replicate (height - numUpper) none
  let uppersExt : List (List α) :=
    s.uppers ++ List.replicate (height - numUpper) []
  { base := insertAfter c (path.getLast?.getD none) v s.base
    uppers := spliceLevels c v (ints.take height) uppersExt
    size := s.size + 1 }

/-- `insert(value, replacing)` with the generated (pre-clamp) height `gen`
supplied as an explicit input. -/
def SkipList.insert {α : Type} (c : Cmp α) (s : SkipList α) (gen : Nat) (v : α)
    (replacing : Bool) : SkipList α :=
  let path := s.trace c v
  match path.getLast?.getD none with
  | some w =>
      if c.eq w v then
        if replacing then { s with base := replaceNode c w v s.base } else s
      else s.insertNew c gen v path
  | none => s.insertNew c gen v path

/-- `_link2(p, n.next)`: unlink the (unique) node comparator-equal to `w`. -/
def eraseNode {α : Type} (c : Cmp α) (w : α) : List α → List α
  | [] => []
  | x :: xs => if c.eq x w then xs else x :: eraseNode c w xs

/-- One step of the removal loop at one level: when `p.next is n`, redirect
`p`'s forward link past `n` (when `n` is the level's sentinel this relinks
the sentinel to its own successor, a no-op on the list of values); otherwise
report the `break`. -/
def unlinkLevel {α : Type} (c : Cmp α) (p n : Option α) (l : List α) : Option (List α) :=
  if optEq c (ringNext c l p) n then
    some (match n with
          | some u => eraseNode c u l
          | none => l)
  else none

/-- `for p, n in zip(previous, reversed(nodes))`: process levels bottom-up,
stopping at the first level whose candidate predecessor does not link to the
traced node. -/
def unlinkLoop {α : Type} (c : Cmp α) :
    List (Option α) → List (Option α) → List (List α) → List (List α)
  | p :: ps, n :: ns, l :: ls =>
      (match unlinkLevel c p n l with
       | some l2 => l2 :: unlinkLoop c ps ns ls
       | none => l :: ls)
  | _, _, ls => ls

/-- `remove(value)`: `KeyError` (modelled `.error ()`) when the traced base
node's value is unequal to `value`; otherwise re-trace from the predecessor's
value (or use the sentinels when the node is first), unlink level by level,
decrement the size and return the removed stored value. -/
def SkipList.remove {α : Type} (c : Cmp α) (s : SkipList α) (v : α) :
    Except Unit (α × SkipList α) :=
  let path := s.trace c v
  match path.getLast?.getD none with
  | none => .error ()
  | some w =>
      if c.ne w v then .error ()
      else
        let previous : List (Option α) :=
          match nodePrev c w s.base with
          | none => List.replicate (s.uppers.length + 1) none
          | some pv => (s.trace c pv).reverse
        let levels2 := unlinkLoop c previous path.reverse (s.base :: s.uppers)
        .ok (w, { base := levels2.headD [], uppers := levels2.tail, size := s.size - 1 })

/-- `__iloc(index)`: wrap a negative index by `__size`, check bounds against
`__size`, then walk that many forward links from the base head. -/
def SkipList.iloc {α : Type} (s : SkipList α) (i : Int) : Option α :=
  let j : Int := if i < 0 then i + s.size else i
  if j < 0 ∨ (s.size : Int) ≤ j then none
  else s.base.get? j.toNat

/-- `__getitem__` with an integer index: bounds check (`IndexError` modelled
`.error ()`) then `__iloc`. -/
def SkipList.getItem {α : Type} (s : SkipList α) (i : Int) : Except Unit α :=
  if i < -(s.size : Int) ∨ (s.size : Int) ≤ i then .error ()
  else
    match s.iloc i with
    | some v => .ok v
    | none => .error ()

/-- `__delitem__`: `remove(self.__iloc(index).value)`. -/
def SkipList.delItem {α : Type} (c : Cmp α) (s : SkipList α) (i : Int) :
    Except Unit (α × SkipList α) :=
  match s.iloc i with
  | none => .error ()
  | some v => s.remove c v

/-- `extends(iterable)` from `__init__`: insert every value (with
`replacing=True`), consuming one generated height per insertion. -/
def insertEach {α : Type} (c : Cmp α) : List Nat → List α → SkipList α → SkipList α
  | _, [], s => s
  | g :: gs, v :: vs, s => insertEach c gs vs (s.insert c g v true)
  | [], v :: vs, s => insertEach c [] vs (s.insert c 0 v true)

/-- `copy()` = `SkipList(self)`: a new container built from the ascending
iteration of `self` with the DEFAULT comparator and the default random
height generator (its draws supplied as `gens`). -/
def SkipList.copy {α : Type} [LinearOrder α] (gens : List Nat) (s : SkipList α) :
    SkipList α :=
  insertEach (natCmp α) gens s.iter SkipList.empty

/-- `__eq__`: both `SkipList`s, equal sizes, pairwise equal (`!=` on stored
values) along the zipped ascending iterations. -/
def skEq {α : Type} [DecidableEq α] (s t : SkipList α) : Bool :=
  s.size == t.size && (s.iter.zip t.iter).all fun p => p.1 == p.2

/-! ## Specification-side helpers (brute-force views used in statements) -/

/-- The last node of a level whose key is at most `k` (the per-level
predecessor a trace computes on a well-formed state). -/
def lastLe {α β : Type} [LinearOrder β] (f : α → β) (k : β) (l : List α) : Option α :=
  (l.takeWhile fun x => decide (f x ≤ k)).getLast?

/-- The last node of a level whose key is strictly below `k` (the true
per-level predecessor of a node with key `k`). -/
def lastLt {α β : Type} [LinearOrder β] (f : α → β) (k : β) (l : List α) : Option α :=
  (l.takeWhile fun x => decide (f x < k)).getLast?

/-- Insertion of `v` at its sorted position: after every element whose key is
at most `v`'s key. -/
def keyInsert {α β : Type} [LinearOrder β] (f : α → β) (v : α) (l : List α) : List α :=
  (l.takeWhile fun x => decide (f x ≤ f v)) ++ v :: (l.dropWhile fun x => decide (f x ≤ f v))

/-- Brute force ceiling: the first element of the sorted content that is
`≥ k` (`> k` when not inclusive). -/
def leastGe {α : Type} [LinearOrder α] (k : α) (inclusive : Bool) (l : List α) : Option α :=
  (l.filter fun x => if inclusive then decide (k ≤ x) else decide (k < x)).head?

/-- Brute force floor: the last element of the sorted content that is
`≤ k` (`< k` when not inclusive). -/
def greatestLe {α : Type} [LinearOrder α] (k : α) (inclusive : Bool) (l : List α) : Option α :=
  (l.filter fun x => if inclusive then decide (x ≤ k) else decide (x < k)).getLast?

/-- The structural invariant, at the key level: the base holds strictly
increasing keys; each level's keys form a sublist of the keys one level
below (towers are contiguous from the base up); the recorded size counts the
base nodes. -/
def InvF {α β : Type} [LinearOrder β] (f : α → β) (s : SkipList α) : Prop :=
  s.base.Pairwise (fun a b => f a < f b) ∧
  List.Chain' (fun lo up => (up.map f).Sublist (lo.map f)) (s.base :: s.uppers) ∧
  s.size = s.base.length

/-- States reachable from a freshly constructed container by `insert` and
(successful) `remove`, under the comparator `keyCmp f`. -/
inductive ReachableF {α β : Type} [LinearOrder β] (f : α → β) : SkipList α → Prop where
  | empty : ReachableF f SkipList.empty
  | insert (s : SkipList α) (g : Nat) (v : α) (r : Bool) :
      ReachableF f s → ReachableF f (s.insert (keyCmp f) g v r)
  | remove (s : SkipList α) (v w : α) (s2 : SkipList α) :
      ReachableF f s → s.remove (keyCmp f) v = .ok (w, s2) → ReachableF f s2

/-! ### Concrete containers used as witnesses -/

/-- The estimation scenario container: `SkipList([-2, 1, 7, 14, 55, 972])`. -/
def exEstim : SkipList Int :=
  insertEach (natCmp Int) [1, 0, 2, 0, 1, 0] [-2, 1, 7, 14, 55, 972] SkipList.empty

/-- The removal scenario container: `SkipList([3, 2, 1, 4])`. -/
def exFour : SkipList Int :=
  insertEach (natCmp Int) [1, 0, 2, 0] [3, 2, 1, 4] SkipList.empty

/-- A two-element container `SkipList([1, 2])`. -/
def exTwo : SkipList Int :=
  insertEach (natCmp Int) [0, 0] [1, 2] SkipList.empty

/-- A container built with a reversed-order comparator. -/
def exRev : SkipList Int :=
  insertEach (keyCmp fun x : Int => -x) [0, 0] [1, 2] SkipList.empty

/-- A keyed container of (key, payload) pairs compared on the key alone. -/
def exPair : SkipList (Int × Int) :=
  insertEach (keyCmp (Prod.fst : Int × Int → Int)) [0, 1] [(1, 10), (2, 20)]
    SkipList.empty

/-! ## Comparator facts -/

section Lemmas

variable {α β : Type} [LinearOrder β] {f : α → β}

@[simp] theorem keyCmp_le (a b : α) : (keyCmp f).le a b = decide (f a ≤ f b) := rfl

@[simp] theorem keyCmp_eq (a b : α) : (keyCmp f).eq a b = decide (f a = f b) := rfl

@[simp] theorem keyCmp_ne (a b : α) : (keyCmp f).ne a b = decide (f a ≠ f b) := rfl

@[simp] theorem keyCmp_gt (a b : α) : (keyCmp f).gt a b = decide (f b < f a) := rfl

theorem natCmp_def (α : Type) [LinearOrder α] : natCmp α = keyCmp (id : α → α) := rfl

theorem log2Aux_eq_log : ∀ {fuel n : Nat}, n ≤ fuel → log2Aux fuel n = Nat.log 2 n := by
  intro fuel
  induction fuel with
  | zero =>
      intro n h
      have hn : n = 0 := by omega
      subst hn
      simp [log2Aux]
  | succ fuel ih =>
      intro n h
      rw [log2Aux]
      by_cases h2 : 2 ≤ n
      · have hlt : n / 2 < n := Nat.div_lt_self (by omega) (by omega)
        rw [if_pos h2, ih (by omega), Nat.log_of_one_lt_of_le (by omega) h2]
      · rw [if_neg h2]
        symm
        exact Nat.log_of_lt (by omega)

theorem log2floor_eq_log (n : Nat) : log2floor n = Nat.log 2 n :=
  log2Aux_eq_log le_rfl

/-! ## Generic takeWhile / dropWhile helpers -/

theorem takeWhile_append_all {p : α → Bool} {A B : List α} (h : ∀ x ∈ A, p x = true) :
    (A ++ B).takeWhile p = A ++ B.takeWhile p := by
  induction A with
  | nil => simp
  | cons a A ih =>
      simp only [List.cons_append, List.takeWhile_cons, h a (by simp)]
      simp [ih fun x hx => h x (by simp [hx])]

theorem dropWhile_append_all {p : α → Bool} {A B : List α} (h : ∀ x ∈ A, p x = true) :
    (A ++ B).dropWhile p = B.dropWhile p := by
  induction A with
  | nil => simp
  | cons a A ih =>
      simp only [List.cons_append, List.dropWhile_cons, h a (by simp)]
      simp [ih fun x hx => h x (by simp [hx])]

theorem takeWhile_cons_of_neg {p : α → Bool} {x : α} {B : List α} (h : ¬ p x = true) :
    (x :: B).takeWhile p = [] := by
  simp [List.takeWhile_cons, h]

theorem dropWhile_cons_of_neg {p : α → Bool} {x : α} {B : List α} (h : ¬ p x = true) :
    (x :: B).dropWhile p = x :: B := by
  simp [List.dropWhile_cons, h]

theorem getLast?_append_cons' (X : List α) (u : α) (Y : List α) :
    (X ++ u :: Y).getLast? =
      (match Y.getLast? with
       | none => some u
       | some x => some x) := by
  rw [List.getLast?_append_cons]
  cases Y using List.reverseRecOn with
  | nil => simp
  | append_singleton Y y =>
      rw [show u :: (Y ++ [y]) = (u :: Y) ++ [y] by simp, List.getLast?_concat,
        List.getLast?_concat]

/-! ## Key-sorted lists -/

theorem ks_of_sublist {l m : List α}
    (h : (l.map f).Sublist (m.map f)) (hm : m.Pairwise fun a b => f a < f b) :
    l.Pairwise fun a b => f a < f b := by
  have hm' : (m.map f).Pairwise (· < ·) := (List.pairwise_map).2 hm
  exact (List.pairwise_map).1 (hm'.sublist h)

theorem mem_decomp {l : List α} {u : α}
    (hl : l.Pairwise fun a b => f a < f b) (hu : u ∈ l) :
    ∃ A B, l = A ++ u :: B ∧ (∀ x ∈ A, f x < f u) ∧ (∀ x ∈ B, f u < f x) := by
  obtain ⟨A, B, rfl⟩ := List.append_of_mem hu
  refine ⟨A, B, rfl, ?_, ?_⟩
  · intro x hx
    exact (List.pairwise_append.1 hl).2.2 x hx u (by simp)
  · intro x hx
    exact (List.pairwise_cons.1 (List.pairwise_append.1 hl).2.1).1 x hx

theorem keys_dropWhile_gt {k : β} {l : List α}
    (hl : l.Pairwise fun a b => f a < f b) :
    ∀ x ∈ l.dropWhile (fun a => decide (f a ≤ k)), k < f x := by
  induction l with
  | nil => simp
  | cons a l ih =>
      intro x hx
      by_cases ha : f a ≤ k
      · rw [List.dropWhile_cons_of_pos (by simpa using ha)] at hx
        exact ih hl.tail x hx
      · rw [List.dropWhile_cons_of_neg (by simpa using ha)] at hx
        rcases List.mem_cons.1 hx with rfl | hx
        · exact lt_of_not_le ha
        · exact lt_trans (lt_of_not_le ha) (List.rel_of_pairwise_cons hl hx)

theorem keys_takeWhile_le {k : β} {l : List α} :
    ∀ x ∈ l.takeWhile (fun a => decide (f a ≤ k)), f x ≤ k := fun x hx => by
  simpa using List.mem_takeWhile_imp hx

end Lemmas

/-! ## `lastLe` and the trace characterization -/

section Trace

variable {α β : Type} [LinearOrder β] {f : α → β}

theorem lastLe_mem {k : β} {l : List α} {w : α} (h : lastLe f k l = some w) :
    w ∈ l ∧ f w ≤ k := by
  have hmem := List.mem_of_getLast?_eq_some h
  exact ⟨(List.takeWhile_sublist _).mem hmem, by simpa using List.mem_takeWhile_imp hmem⟩

theorem lastLe_none {k : β} {l : List α}
    (hl : l.Pairwise fun a b => f a < f b) (h : lastLe f k l = none) :
    ∀ x ∈ l, k < f x := by
  have htake : l.takeWhile (fun x => decide (f x ≤ k)) = [] :=
    List.getLast?_eq_none_iff.1 h
  intro x hx
  have : x ∈ l.dropWhile fun x => decide (f x ≤ k) := by
    rw [← List.takeWhile_append_dropWhile (p := fun x => decide (f x ≤ k)) (l := l),
      htake] at hx
    simpa using hx
  exact keys_dropWhile_gt hl x this

theorem lastLe_decomp {k : β} {l : List α} {u : α} (h : lastLe f k l = some u) :
    ∃ A, l.takeWhile (fun x => decide (f x ≤ k)) = A ++ [u] ∧
      l = A ++ u :: l.dropWhile (fun x => decide (f x ≤ k)) := by
  obtain ⟨A, hA⟩ := List.getLast?_eq_some_iff.1 h
  refine ⟨A, hA, ?_⟩
  conv_lhs => rw [← List.takeWhile_append_dropWhile (p := fun x => decide (f x ≤ k)) (l := l)]
  rw [hA]
  simp

theorem levelStop_start_none (c : Cmp α) (qv : α) (l : List α) :
    levelStop c qv none l = scanStop c qv l := by
  show (match scanStop c qv l with | none => none | some x => some x) = scanStop c qv l
  cases scanStop c qv l <;> rfl

theorem levelStop_start_some (c : Cmp α) (qv w : α) (l : List α) :
    levelStop c qv (some w) l =
      match scanStop c qv (towerRest c w l) with
      | none => towerNode c w l
      | some x => some x := rfl

theorem scanStop_keyCmp (qv : α) (l : List α) :
    scanStop (keyCmp f) qv l = lastLe f (f qv) l := rfl

theorem levelStop_eq_lastLe {qv : α} {l : List α}
    (hl : l.Pairwise fun a b => f a < f b) (start : Option α)
    (hstart : ∀ w, start = some w → f w ≤ f qv ∧ ∃ u ∈ l, f u = f w) :
    levelStop (keyCmp f) qv start l = lastLe f (f qv) l := by
  cases start with
  | none => rw [levelStop_start_none, scanStop_keyCmp]
  | some w =>
      obtain ⟨hwk, u, hu, hfu⟩ := hstart w rfl
      obtain ⟨A, B, rfl, hA, hB⟩ := mem_decomp hl hu
      have hdrop : ((A ++ u :: B).dropWhile fun x => !((keyCmp f).eq x w)) = u :: B := by
        rw [dropWhile_append_all (fun x hx => by
          simp only [keyCmp_eq, Bool.not_eq_true', decide_eq_false_iff_not]
          exact ne_of_lt (lt_of_lt_of_le (hA x hx) (le_of_eq hfu)))]
        exact dropWhile_cons_of_neg (by simp [hfu])
      have htower : towerNode (keyCmp f) w (A ++ u :: B) = some u := by
        rw [towerNode, hdrop]; rfl
      have hrest : towerRest (keyCmp f) w (A ++ u :: B) = B := by
        rw [towerRest, hdrop]; rfl
      have htake : ((A ++ u :: B).takeWhile fun x => decide (f x ≤ f qv)) =
          A ++ u :: (B.takeWhile fun x => decide (f x ≤ f qv)) := by
        rw [takeWhile_append_all (fun x hx => by
            simp only [decide_eq_true_eq]
            exact le_of_lt (lt_of_lt_of_le (lt_of_lt_of_le (hA x hx) (le_of_eq hfu)) hwk)),
          List.takeWhile_cons_of_pos (by simpa using le_trans (le_of_eq hfu) hwk)]
      rw [levelStop_start_some, hrest, htower, scanStop_keyCmp]
      conv_rhs => rw [lastLe, htake, getLast?_append_cons']
      rfl

theorem traceFrom_eq {qv : α} :
    ∀ (L : List (List α)) (start : Option α),
      (∀ l ∈ L, l.Pairwise fun a b => f a < f b) →
      List.Chain' (fun a b => (a.map f).Sublist (b.map f)) L →
      (∀ w, start = some w → f w ≤ f qv ∧
        ∀ l₀ ∈ L.head?, ∃ u ∈ l₀, f u = f w) →
      traceFrom (keyCmp f) qv L start = L.map (lastLe f (f qv)) := by
  intro L
  induction L with
  | nil => intro start _ _ _; rfl
  | cons l rest ih =>
      intro start hsort hchain hstart
      have hl : l.Pairwise fun a b => f a < f b := hsort l (by simp)
      have hstop : levelStop (keyCmp f) qv start l = lastLe f (f qv) l :=
        levelStop_eq_lastLe hl start fun w hw =>
          ⟨(hstart w hw).1, (hstart w hw).2 l (by simp)⟩
      show levelStop (keyCmp f) qv start l ::
          traceFrom (keyCmp f) qv rest (levelStop (keyCmp f) qv start l) = _
      rw [hstop, List.map_cons]
      congr 1
      refine ih (lastLe f (f qv) l) (fun m hm => hsort m (by simp [hm]))
        hchain.tail ?_
      intro w hw
      obtain ⟨hwl, hwk⟩ := lastLe_mem hw
      refine ⟨hwk, ?_⟩
      intro l₀ hl₀
      cases rest with
      | nil => simp at hl₀
      | cons l₁ rest' =>
          simp only [List.head?_cons, Option.mem_def, Option.some.injEq] at hl₀
          have hsub : (l.map f).Sublist (l₁.map f) := (List.chain'_cons.1 hchain).1
          have hmm : f w ∈ l₁.map f := hsub.mem (List.mem_map_of_mem f hwl)
          obtain ⟨u, hu, hfu⟩ := List.mem_map.1 hmm
          exact hl₀ ▸ ⟨u, hu, hfu⟩

theorem chain'_sublist_all {x : List α} {xs : List (List α)}
    (h : List.Chain' (fun lo up => (up.map f).Sublist (lo.map f)) (x :: xs)) :
    ∀ u ∈ xs, (u.map f).Sublist (x.map f) := by
  induction xs generalizing x with
  | nil => simp
  | cons y ys ih =>
      intro u hu
      have h1 : (y.map f).Sublist (x.map f) := (List.chain'_cons.1 h).1
      rcases List.mem_cons.1 hu with rfl | hu
      · exact h1
      · exact ((ih (List.chain'_cons.1 h).2) u hu).trans h1

theorem invF_levels_sorted {s : SkipList α} (h : InvF f s) :
    ∀ l ∈ s.base :: s.uppers, l.Pairwise fun a b => f a < f b := by
  intro l hl
  rcases List.mem_cons.1 hl with rfl | hl
  · exact h.1
  · exact ks_of_sublist (chain'_sublist_all h.2.1 l hl) h.1

theorem trace_eq {s : SkipList α} (h : InvF f s) (qv : α) :
    s.trace (keyCmp f) qv = (s.uppers.reverse ++ [s.base]).map (lastLe f (f qv)) := by
  have hrev : s.uppers.reverse ++ [s.base] = (s.base :: s.uppers).reverse := by simp
  rw [SkipList.trace, hrev]
  refine traceFrom_eq _ none (fun l hl => invF_levels_sorted h l (by
      simpa using List.mem_reverse.1 hl)) ?_ (by simp)
  rw [List.chain'_reverse]
  exact h.2.1

theorem traceRev_eq {s : SkipList α} (h : InvF f s) (qv : α) :
    (s.trace (keyCmp f) qv).reverse = (s.base :: s.uppers).map (lastLe f (f qv)) := by
  rw [trace_eq h qv, show s.uppers.reverse ++ [s.base] = (s.base :: s.uppers).reverse by simp,
    ← List.map_reverse, List.reverse_reverse]

theorem traceBase_eq {s : SkipList α} (h : InvF f s) (qv : α) :
    s.traceBase (keyCmp f) qv = lastLe f (f qv) s.base := by
  rw [SkipList.traceBase, trace_eq h qv]
  simp

end Trace

/-! ## Insert characterization -/

section Insert

variable {α β : Type} [LinearOrder β] {f : α → β}

theorem takeWhile_nil_of_all {p : α → Bool} {B : List α} (h : ∀ x ∈ B, ¬ p x = true) :
    B.takeWhile p = [] := by
  cases B with
  | nil => rfl
  | cons b B => exact takeWhile_cons_of_neg (h b (by simp))

theorem insertAfterNode_decomp {w v u : α} {A B : List α}
    (hA : ∀ x ∈ A, f x ≠ f w) (hu : f u = f w) :
    insertAfterNode (keyCmp f) w v (A ++ u :: B) = A ++ u :: v :: B := by
  induction A with
  | nil => simp [insertAfterNode, hu]
  | cons a A ih =>
      have ha : ((keyCmp f).eq a w) = false := by
        simp only [keyCmp_eq, decide_eq_false_iff_not]
        exact hA a (by simp)
      simp only [List.cons_append, insertAfterNode, ha]
      simp [ih fun x hx => hA x (by simp [hx])]

theorem replaceNode_decomp {w v : α} {A B : List α} (hA : ∀ x ∈ A, f x ≠ f w) :
    replaceNode (keyCmp f) w v (A ++ w :: B) = A ++ v :: B := by
  induction A with
  | nil => simp [replaceNode]
  | cons a A ih =>
      have ha : ((keyCmp f).eq a w) = false := by
        simp only [keyCmp_eq, decide_eq_false_iff_not]
        exact hA a (by simp)
      simp only [List.cons_append, replaceNode, ha]
      simp [ih fun x hx => hA x (by simp [hx])]

theorem insertAfter_lastLe {v : α} {l : List α}
    (hl : l.Pairwise fun a b => f a < f b) :
    insertAfter (keyCmp f) (lastLe f (f v) l) v l = keyInsert f v l := by
  rcases hll : lastLe f (f v) l with _ | u
  · have htake : l.takeWhile (fun x => decide (f x ≤ f v)) = [] :=
      List.getLast?_eq_none_iff.1 hll
    have hdrop : l.dropWhile (fun x => decide (f x ≤ f v)) = l := by
      conv_rhs => rw [← List.takeWhile_append_dropWhile
        (p := fun x => decide (f x ≤ f v)) (l := l), htake]
      simp
    simp [insertAfter, keyInsert, htake, hdrop]
  · obtain ⟨A, hA, hl'⟩ := lastLe_decomp hll
    have hmemu : u ∈ l ∧ f u ≤ f v := lastLe_mem hll
    have hAlt : ∀ x ∈ A, f x < f u := by
      intro x hx
      have := List.pairwise_append.1 (hl' ▸ hl)
      exact this.2.2 x hx u (by simp)
    rw [insertAfter, keyInsert, hA]
    conv_lhs => rw [hl']
    rw [insertAfterNode_decomp (fun x hx => ne_of_lt (hAlt x hx)) rfl]
    simp

theorem spliceLevels_map_take (c : Cmp α) (v : α) (g : List α → Option α) :
    ∀ (H : Nat) (ls : List (List α)),
      spliceLevels c v ((ls.map g).take H) ls =
        (ls.take H).map (fun l => insertAfter c (g l) v l) ++ ls.drop H := by
  intro H
  induction H with
  | zero => intro ls; cases ls <;> simp [spliceLevels]
  | succ H ih =>
      intro ls
      cases ls with
      | nil => simp [spliceLevels]
      | cons l ls => simp [spliceLevels, ih ls]

theorem trace_getLast {s : SkipList α} (h : InvF f s) (qv : α) :
    (s.trace (keyCmp f) qv).getLast?.getD none = lastLe f (f qv) s.base := by
  rw [trace_eq h qv]
  simp

theorem trace_dropLast_rev {s : SkipList α} (h : InvF f s) (qv : α) :
    (s.trace (keyCmp f) qv).dropLast.reverse = s.uppers.map (lastLe f (f qv)) := by
  rw [trace_eq h qv]
  simp only [List.map_append, List.map_cons, List.map_nil]
  rw [List.dropLast_concat, ← List.map_reverse, List.reverse_reverse]

theorem insertNew_trace_spec {s : SkipList α} (h : InvF f s) (v : α) (gen : Nat)
    {H : Nat} (hH : H = min gen (8 + log2floor (s.size + 1))) :
    s.insertNew (keyCmp f) gen v (s.trace (keyCmp f) v) =
      { base := insertAfter (keyCmp f) (lastLe f (f v) s.base) v s.base
        uppers :=
          (((s.uppers ++ List.replicate (H - s.uppers.length) []).take H).map
              fun l => insertAfter (keyCmp f) (lastLe f (f v) l) v l) ++
            (s.uppers ++ List.replicate (H - s.uppers.length) []).drop H
        size := s.size + 1 } := by
  subst hH
  rw [SkipList.insertNew, trace_getLast h, trace_dropLast_rev h]
  have hrepl : List.replicate (min gen (8 + log2floor (s.size + 1)) - s.uppers.length)
      (none : Option α) =
      (List.replicate (min gen (8 + log2floor (s.size + 1)) - s.uppers.length)
        ([] : List α)).map (lastLe f (f v)) := by
    rw [List.map_replicate]
    rfl
  rw [hrepl, ← List.map_append, List.map_take, spliceLevels_map_take, List.map_take]

theorem insert_absent_eq_new {s : SkipList α} (h : InvF f s) {v : α}
    (habs : ∀ u ∈ s.base, f u ≠ f v) (gen : Nat) (r : Bool) :
    s.insert (keyCmp f) gen v r = s.insertNew (keyCmp f) gen v (s.trace (keyCmp f) v) := by
  rw [SkipList.insert]
  rcases hll : (s.trace (keyCmp f) v).getLast?.getD none with _ | w
  · rfl
  · have hw := lastLe_mem (trace_getLast h v ▸ hll)
    have hne : f w ≠ f v := habs w hw.1
    simp [hne]

theorem insert_found {s : SkipList α} (h : InvF f s) {v w : α} {A B : List α}
    (hsplit : s.base = A ++ w :: B) (hk : f w = f v) (gen : Nat) :
    s.insert (keyCmp f) gen v true = { s with base := A ++ v :: B } ∧
      s.insert (keyCmp f) gen v false = s := by
  have hpw := hsplit ▸ h.1
  have hA : ∀ x ∈ A, f x < f w := fun x hx =>
    (List.pairwise_append.1 hpw).2.2 x hx w (by simp)
  have hB : ∀ x ∈ B, f w < f x := fun x hx =>
    (List.pairwise_cons.1 (List.pairwise_append.1 hpw).2.1).1 x hx
  have htake : s.base.takeWhile (fun x => decide (f x ≤ f v)) = A ++ [w] := by
    rw [hsplit, takeWhile_append_all (fun x hx => by
        simp only [decide_eq_true_eq]
        exact le_of_lt (lt_of_lt_of_le (hA x hx) (le_of_eq hk))),
      List.takeWhile_cons_of_pos (by simpa using le_of_eq hk),
      takeWhile_nil_of_all (fun x hx => by
        simp only [decide_eq_true_eq, not_le]
        exact lt_of_le_of_lt (le_of_eq hk.symm) (hB x hx))]
  have hlast : lastLe f (f v) s.base = some w := by
    rw [lastLe, htake]
    simp
  have htb : (s.trace (keyCmp f) v).getLast?.getD none = some w :=
    (trace_getLast h v).trans hlast
  constructor
  · rw [SkipList.insert, htb]
    simp only [keyCmp_eq, hk, decide_True, if_true, Bool.true_eq]
    rw [hsplit, replaceNode_decomp (fun x hx => ne_of_lt (hA x hx))]
  · rw [SkipList.insert, htb]
    simp [hk]

end Insert

/-! ## Insert preserves the invariant -/

section InsertInv

variable {α β : Type} [LinearOrder β] {f : α → β} {v : α}

theorem map_takeWhile_key (k : β) (l : List α) :
    (l.takeWhile fun x => decide (f x ≤ k)).map f =
      (l.map f).takeWhile fun x => decide (x ≤ k) := by
  induction l with
  | nil => rfl
  | cons a l ih =>
      by_cases h : f a ≤ k <;> simp [List.takeWhile_cons, h, ih]

theorem map_dropWhile_key (k : β) (l : List α) :
    (l.dropWhile fun x => decide (f x ≤ k)).map f =
      (l.map f).dropWhile fun x => decide (x ≤ k) := by
  induction l with
  | nil => rfl
  | cons a l ih =>
      by_cases h : f a ≤ k <;> simp [List.dropWhile_cons, h, ih]

theorem map_keyInsert (l : List α) :
    (keyInsert f v l).map f =
      ((l.map f).takeWhile fun x => decide (x ≤ f v)) ++
        f v :: ((l.map f).dropWhile fun x => decide (x ≤ f v)) := by
  rw [keyInsert, List.map_append, List.map_cons, map_takeWhile_key, map_dropWhile_key]

theorem takeWhile_eq_filter_sorted {k : β} {L : List β} (h : L.Pairwise (· < ·)) :
    L.takeWhile (fun x => decide (x ≤ k)) = L.filter fun x => decide (x ≤ k) := by
  induction L with
  | nil => rfl
  | cons a L ih =>
      by_cases ha : a ≤ k
      · simp [List.takeWhile_cons, List.filter_cons, ha, ih h.tail]
      · rw [takeWhile_cons_of_neg (by simpa using ha), List.filter_cons,
          if_neg (by simpa using ha), List.filter_eq_nil_iff.2 fun x hx => by
            simp only [decide_eq_true_eq, not_le]
            exact lt_trans (lt_of_not_le ha) (List.rel_of_pairwise_cons h hx)]

theorem dropWhile_eq_filter_sorted {k : β} {L : List β} (h : L.Pairwise (· < ·)) :
    L.dropWhile (fun x => decide (x ≤ k)) = L.filter fun x => decide (k < x) := by
  induction L with
  | nil => rfl
  | cons a L ih =>
      by_cases ha : a ≤ k
      · rw [List.dropWhile_cons_of_pos (by simpa using ha), List.filter_cons,
          if_neg (by simpa using not_lt.2 ha), ih h.tail]
      · rw [List.dropWhile_cons_of_neg (by simpa using ha), List.filter_cons,
          if_pos (by simpa using lt_of_not_le ha), List.filter_eq_self.2 fun x hx => by
            simp only [decide_eq_true_eq]
            exact lt_trans (lt_of_not_le ha) (List.rel_of_pairwise_cons h hx)]

theorem keyInsert_sublist {l m : List α}
    (hl : l.Pairwise fun a b => f a < f b) (hm : m.Pairwise fun a b => f a < f b)
    (hml : (m.map f).Sublist (l.map f)) :
    ((keyInsert f v m).map f).Sublist ((keyInsert f v l).map f) := by
  rw [map_keyInsert, map_keyInsert]
  have hlp : (l.map f).Pairwise (· < ·) := (List.pairwise_map).2 hl
  have hmp : (m.map f).Pairwise (· < ·) := (List.pairwise_map).2 hm
  rw [takeWhile_eq_filter_sorted hlp, takeWhile_eq_filter_sorted hmp,
    dropWhile_eq_filter_sorted hlp, dropWhile_eq_filter_sorted hmp]
  exact List.Sublist.append (hml.filter _) (List.Sublist.cons₂ _ (hml.filter _))

theorem sublist_keyInsert_self (l : List α) :
    (l.map f).Sublist ((keyInsert f v l).map f) := by
  rw [map_keyInsert]
  conv_lhs => rw [← List.takeWhile_append_dropWhile
    (p := fun x => decide (x ≤ f v)) (l := l.map f)]
  exact List.Sublist.append_left (List.sublist_cons_self _ _) _

theorem keyInsert_pairwise {l : List α}
    (hl : l.Pairwise fun a b => f a < f b) (habs : ∀ u ∈ l, f u ≠ f v) :
    (keyInsert f v l).Pairwise fun a b => f a < f b := by
  rw [keyInsert]
  rw [List.pairwise_append]
  refine ⟨hl.sublist (List.takeWhile_sublist _), ?_, ?_⟩
  · rw [List.pairwise_cons]
    exact ⟨fun x hx => keys_dropWhile_gt hl x hx,
      hl.sublist (List.dropWhile_sublist _)⟩
  · intro x hx y hy
    have hxv : f x < f v :=
      lt_of_le_of_ne (keys_takeWhile_le x hx)
        (habs x ((List.takeWhile_sublist _).mem hx))
    rcases List.mem_cons.1 hy with rfl | hy
    · exact hxv
    · exact lt_trans hxv (keys_dropWhile_gt hl y hy)

theorem keyInsert_length (l : List α) : (keyInsert f v l).length = l.length + 1 := by
  rw [keyInsert]
  rw [List.length_append, List.length_cons]
  conv_rhs => rw [← List.takeWhile_append_dropWhile (p := fun x => decide (f x ≤ f v)) (l := l)]
  rw [List.length_append]
  omega

theorem chain'_extend_nil (base : List α) (uppers : List (List α)) (m : Nat)
    (h : List.Chain' (fun lo up => (up.map f).Sublist (lo.map f)) (base :: uppers)) :
    List.Chain' (fun lo up => (up.map f).Sublist (lo.map f))
      (base :: (uppers ++ List.replicate m [])) := by
  rw [show base :: (uppers ++ List.replicate m []) =
    (base :: uppers) ++ List.replicate m [] by simp]
  rw [List.chain'_append]
  refine ⟨h, List.chain'_replicate_of_rel m (by simp), ?_⟩
  intro x _ y hy
  have : y = [] := List.eq_of_mem_replicate (by simpa using List.mem_of_mem_head? hy)
  simp [this]

theorem chain'_splice :
    ∀ (ls : List (List α)) (n : Nat),
      (∀ l ∈ ls, l.Pairwise (fun a b => f a < f b) ∧ ∀ u ∈ l, f u ≠ f v) →
      List.Chain' (fun lo up => (up.map f).Sublist (lo.map f)) ls →
      List.Chain' (fun lo up => (up.map f).Sublist (lo.map f))
        ((ls.take n).map (keyInsert f v) ++ ls.drop n) := by
  intro ls
  induction ls with
  | nil => intro n _ _; simp
  | cons l ls ih =>
      intro n hall hchain
      cases n with
      | zero => simpa using hchain
      | succ k =>
          simp only [List.take_succ_cons, List.drop_succ_cons, List.map_cons,
            List.cons_append]
          rw [List.chain'_cons']
          refine ⟨?_, ih k (fun x hx => hall x (by simp [hx]))
            (List.Chain'.tail hchain)⟩
          intro y hy
          cases ls with
          | nil => simp at hy
          | cons m ls' =>
              have hlm : (m.map f).Sublist (l.map f) := (List.chain'_cons.1 hchain).1
              have hlp := (hall l (by simp)).1
              have hmp := (hall m (by simp)).1
              cases k with
              | zero =>
                  simp only [List.take_zero, List.map_nil, List.nil_append,
                    List.drop_zero, List.head?_cons, Option.mem_def,
                    Option.some.injEq] at hy
                  subst hy
                  exact hlm.trans (sublist_keyInsert_self l)
              | succ k' =>
                  simp only [List.take_succ_cons, List.map_cons, List.cons_append,
                    List.head?_cons, Option.mem_def, Option.some.injEq] at hy
                  subst hy
                  exact keyInsert_sublist hlp hmp hlm

theorem invF_empty : InvF f (SkipList.empty (α := α)) := by
  refine ⟨by simp [SkipList.empty], by simp [SkipList.empty], by simp [SkipList.empty]⟩

theorem upper_keys_absent {s : SkipList α} (h : InvF f s)
    (habs : ∀ u ∈ s.base, f u ≠ f v) :
    ∀ l ∈ s.base :: s.uppers, ∀ u ∈ l, f u ≠ f v := by
  intro l hl u hu
  rcases List.mem_cons.1 hl with rfl | hl
  · exact habs u hu
  · have hsub := chain'_sublist_all h.2.1 l hl
    have : f u ∈ s.base.map f := hsub.mem (List.mem_map_of_mem f hu)
    obtain ⟨b, hb, hfb⟩ := List.mem_map.1 this
    exact hfb ▸ habs b hb

theorem invF_insert {s : SkipList α} (h : InvF f s) (gen : Nat) (v : α) (r : Bool) :
    InvF f (s.insert (keyCmp f) gen v r) := by
  by_cases hex : ∃ u ∈ s.base, f u = f v
  · obtain ⟨w, hw, hk⟩ := hex
    obtain ⟨A, B, hsplit, hA, hB⟩ := mem_decomp h.1 hw
    cases r with
    | true =>
        rw [(insert_found h hsplit hk gen).1]
        have hmap : (A ++ v :: B).map f = s.base.map f := by
          rw [hsplit]
          simp [hk]
        refine ⟨?_, ?_, ?_⟩
        · rw [List.pairwise_append]
          have hpw := hsplit ▸ h.1
          refine ⟨(List.pairwise_append.1 hpw).1, ?_, ?_⟩
          · rw [List.pairwise_cons]
            exact ⟨fun x hx => hk ▸ hB x hx,
              (List.pairwise_cons.1 (List.pairwise_append.1 hpw).2.1).2⟩
          · intro x hx y hy
            rcases List.mem_cons.1 hy with rfl | hy
            · exact hk ▸ hA x hx
            · exact lt_trans (hA x hx) (hB y hy)
        · rw [List.chain'_cons']
          refine ⟨?_, (List.chain'_cons'.1 h.2.1).2⟩
          intro y hy
          rw [hmap]
          exact (List.chain'_cons'.1 h.2.1).1 y hy
        · have := h.2.2
          rw [hsplit] at this
          simpa using this
    | false =>
        rw [(insert_found h hsplit hk gen).2]
        exact h
  · push_neg at hex
    have habs : ∀ u ∈ s.base, f u ≠ f v := hex
    rw [insert_absent_eq_new h habs gen r,
      insertNew_trace_spec h v gen (H := min gen (8 + log2floor (s.size + 1))) rfl]
    set H := min gen (8 + log2floor (s.size + 1)) with hHdef
    set E := s.uppers ++ List.replicate (H - s.uppers.length) ([] : List α) with hEdef
    have hallE : ∀ l ∈ s.base :: E, l.Pairwise (fun a b => f a < f b) ∧
        ∀ u ∈ l, f u ≠ f v := by
      intro l hl
      rcases List.mem_cons.1 hl with rfl | hl
      · exact ⟨h.1, habs⟩
      · rcases List.mem_append.1 hl with hl | hl
        · exact ⟨invF_levels_sorted h l (by simp [hl]),
            upper_keys_absent h habs l (by simp [hl])⟩
        · have : l = [] := List.eq_of_mem_replicate hl
          simp [this]
    have hchainE : List.Chain' (fun lo up => (up.map f).Sublist (lo.map f))
        (s.base :: E) := chain'_extend_nil s.base s.uppers _ h.2.1
    have hsortE : ∀ l ∈ E, l.Pairwise fun a b => f a < f b :=
      fun l hl => (hallE l (by simp [hl])).1
    have hper : ∀ l ∈ E.take H, insertAfter (keyCmp f) (lastLe f (f v) l) v l =
        keyInsert f v l := by
      intro l hl
      exact insertAfter_lastLe (hsortE l ((List.take_sublist _ _).mem hl))
    refine ⟨?_, ?_, ?_⟩
    · rw [insertAfter_lastLe h.1]
      exact keyInsert_pairwise h.1 habs
    · rw [insertAfter_lastLe h.1, List.map_congr_left hper]
      have hshape : keyInsert f v s.base ::
          ((E.take H).map (keyInsert f v) ++ E.drop H) =
          (((s.base :: E).take (H + 1)).map (keyInsert f v) ++
            (s.base :: E).drop (H + 1)) := by
        simp [List.take_succ_cons, List.drop_succ_cons]
      rw [hshape]
      exact chain'_splice (s.base :: E) (H + 1) hallE hchainE
    · rw [insertAfter_lastLe h.1, keyInsert_length, h.2.2]

end InsertInv

/-! ## Remove characterization: per-level unlink behaviour -/

section RemoveLevel

variable {α β : Type} [LinearOrder β] {f : α → β} {w : α}

theorem takeWhile_congr {p q : α → Bool} :
    ∀ {l : List α}, (∀ x ∈ l, p x = q x) → l.takeWhile p = l.takeWhile q
  | [], _ => rfl
  | x :: xs, h => by
      rw [List.takeWhile_cons, List.takeWhile_cons, h x (by simp)]
      cases hq : q x
      · rfl
      · rw [takeWhile_congr fun y hy => h y (by simp [hy])]

theorem eraseNode_id {l : List α} (h : ∀ u ∈ l, f u ≠ f w) :
    eraseNode (keyCmp f) w l = l := by
  induction l with
  | nil => rfl
  | cons x xs ih =>
      have hfx : ¬ f x = f w := h x (by simp)
      simp [eraseNode, hfx, ih fun u hu => h u (by simp [hu])]

theorem eraseNode_keyCongr {u : α} (hk : f u = f w) (l : List α) :
    eraseNode (keyCmp f) u l = eraseNode (keyCmp f) w l := by
  induction l with
  | nil => rfl
  | cons x xs ih => simp [eraseNode, hk, ih]

theorem eraseNode_decomp {A B : List α} (hA : ∀ x ∈ A, f x ≠ f w) :
    eraseNode (keyCmp f) w (A ++ w :: B) = A ++ B := by
  induction A with
  | nil => simp [eraseNode]
  | cons a A ih =>
      have ha : ((keyCmp f).eq a w) = false := by
        simp only [keyCmp_eq, decide_eq_false_iff_not]
        exact hA a (by simp)
      simp only [List.cons_append, eraseNode, ha]
      simp [ih fun x hx => hA x (by simp [hx])]

theorem map_eraseNode (l : List α) :
    (eraseNode (keyCmp f) w l).map f = (l.map f).eraseP fun k => decide (k = f w) := by
  induction l with
  | nil => rfl
  | cons x xs ih =>
      by_cases h : f x = f w
      · simp [eraseNode, h]
      · simp [eraseNode, h, ih]

theorem lastLe_key_mem {l : List α} (hl : l.Pairwise fun a b => f a < f b)
    {u : α} (hu : u ∈ l) (hk : f u = f w) :
    lastLe f (f w) l = some u := by
  obtain ⟨X, Y, rfl, hX, hY⟩ := mem_decomp hl hu
  rw [lastLe, takeWhile_append_all (fun x hx => by
      simp only [decide_eq_true_eq]
      exact le_of_lt (lt_of_lt_of_le (hX x hx) (le_of_eq hk))),
    List.takeWhile_cons_of_pos (by simpa using le_of_eq hk),
    takeWhile_nil_of_all (fun y hy => by
      simp only [decide_eq_true_eq, not_le]
      exact lt_of_le_of_lt (le_of_eq hk.symm) (hY y hy))]
  simp

theorem lastLt_key_mem {l : List α} (hl : l.Pairwise fun a b => f a < f b)
    {u : α} (hu : u ∈ l) (hk : f u = f w) :
    ∃ X Y, l = X ++ u :: Y ∧ (∀ x ∈ X, f x < f u) ∧ (∀ y ∈ Y, f u < f y) ∧
      lastLt f (f w) l = X.getLast? := by
  obtain ⟨X, Y, rfl, hX, hY⟩ := mem_decomp hl hu
  refine ⟨X, Y, rfl, hX, hY, ?_⟩
  rw [lastLt, takeWhile_append_all (fun x hx => by
      simp only [decide_eq_true_eq]
      exact lt_of_lt_of_le (hX x hx) (le_of_eq hk)),
    takeWhile_cons_of_neg (by simp [hk])]
  simp

theorem towerRest_decomp {q : α} {X Y : List α} (hX : ∀ x ∈ X, f x < f q) :
    towerRest (keyCmp f) q (X ++ q :: Y) = Y := by
  rw [towerRest, dropWhile_append_all (fun x hx => by
      simp only [keyCmp_eq, Bool.not_eq_true', decide_eq_false_iff_not]
      exact ne_of_lt (hX x hx)),
    dropWhile_cons_of_neg (by simp)]
  rfl

theorem unlink_level_found {l : List α} (hl : l.Pairwise fun a b => f a < f b)
    {u : α} (hu : u ∈ l) (hk : f u = f w) :
    unlinkLevel (keyCmp f) (lastLt f (f w) l) (lastLe f (f w) l) l =
      some (eraseNode (keyCmp f) w l) := by
  obtain ⟨X, Y, hdec, hX, hY, hlt⟩ := lastLt_key_mem hl hu hk
  have hle : lastLe f (f w) l = some u := lastLe_key_mem hl hu hk
  have hnext : ringNext (keyCmp f) l (lastLt f (f w) l) = some u := by
    rw [hlt]
    cases hXc : X.getLast? with
    | none =>
        have hXnil : X = [] := List.getLast?_eq_none_iff.1 hXc
        subst hXnil
        rw [hdec]
        rfl
    | some q =>
        obtain ⟨X₀, rfl⟩ := List.getLast?_eq_some_iff.1 hXc
        have hXpw : (X₀ ++ [q]).Pairwise fun a b => f a < f b :=
          (List.pairwise_append.1 (hdec ▸ hl)).1
        have hX₀ : ∀ x ∈ X₀, f x < f q := fun x hx =>
          (List.pairwise_append.1 hXpw).2.2 x hx q (by simp)
        have hq : ∀ x ∈ X₀ ++ [q], f x < f q ∨ x = q := by
          intro x hx
          rcases List.mem_append.1 hx with hx | hx
          · exact Or.inl (hX₀ x hx)
          · exact Or.inr (by simpa using hx)
        show (towerRest (keyCmp f) q l).head? = some u
        rw [hdec, show (X₀ ++ [q]) ++ u :: Y = X₀ ++ q :: (u :: Y) by simp,
          towerRest_decomp hX₀]
        rfl
  rw [unlinkLevel.eq_def, hnext, hle]
  simp only [optEq, keyCmp_eq, decide_True, if_true]
  rw [eraseNode_keyCongr hk]

theorem lastLe_eq_lastLt {l : List α} (habs : ∀ u ∈ l, f u ≠ f w) :
    lastLe f (f w) l = lastLt f (f w) l := by
  refine congrArg List.getLast? (takeWhile_congr fun x hx => ?_)
  exact decide_eq_decide.2 ⟨fun hle => lt_of_le_of_ne hle (habs x hx), le_of_lt⟩

theorem unlink_level_absent_ne {l : List α} (hl : l.Pairwise fun a b => f a < f b)
    (habs : ∀ u ∈ l, f u ≠ f w) (hne : l ≠ []) :
    unlinkLevel (keyCmp f) (lastLt f (f w) l) (lastLe f (f w) l) l = none := by
  rw [unlinkLevel.eq_def, lastLe_eq_lastLt habs]
  suffices hsuff : optEq (keyCmp f)
      (ringNext (keyCmp f) l (lastLt f (f w) l)) (lastLt f (f w) l) = false by
    rw [hsuff]
    simp
  cases ht : lastLt f (f w) l with
  | none =>
      cases l with
      | nil => exact absurd rfl hne
      | cons a l2 => rfl
  | some q =>
      have hqmem : q ∈ l := by
        have := List.mem_of_getLast?_eq_some ht
        exact (List.takeWhile_sublist _).mem this
      obtain ⟨X, Y, rfl, hX, hY⟩ := mem_decomp hl hqmem
      show optEq (keyCmp f) ((towerRest (keyCmp f) q (X ++ q :: Y)).head?) (some q) = false
      rw [towerRest_decomp hX]
      cases Y with
      | nil => rfl
      | cons y Y2 =>
          show optEq (keyCmp f) (some y) (some q) = false
          simp only [optEq, keyCmp_eq, decide_eq_false_iff_not]
          exact (ne_of_lt (hY y (by simp))).symm

theorem unlink_loop_spec :
    ∀ ls : List (List α),
      (∀ l ∈ ls, l.Pairwise fun a b => f a < f b) →
      List.Chain' (fun lo up => (up.map f).Sublist (lo.map f)) ls →
      unlinkLoop (keyCmp f) (ls.map (lastLt f (f w))) (ls.map (lastLe f (f w))) ls =
        ls.map (eraseNode (keyCmp f) w) := by
  intro ls
  induction ls with
  | nil => intro _ _; rfl
  | cons l ls ih =>
      intro hsort hchain
      by_cases hkey : ∃ u ∈ l, f u = f w
      · obtain ⟨u, hu, hk⟩ := hkey
        have hlev := unlink_level_found (hsort l (by simp)) hu hk
        simp only [List.map_cons, unlinkLoop, hlev]
        rw [ih (fun m hm => hsort m (by simp [hm])) hchain.tail]
      · push_neg at hkey
        by_cases hnil : l = []
        · subst hnil
          have hlev : unlinkLevel (keyCmp f) (lastLt f (f w) ([] : List α))
              (lastLe f (f w) ([] : List α)) [] = some [] := rfl
          simp only [List.map_cons, unlinkLoop, hlev]
          rw [ih (fun m hm => hsort m (by simp [hm])) hchain.tail]
          rfl
        · have hlev := unlink_level_absent_ne (hsort l (by simp)) hkey hnil
          simp only [List.map_cons, unlinkLoop, hlev]
          rw [eraseNode_id hkey]
          have hrest : ∀ m ∈ ls, eraseNode (keyCmp f) w m = m := by
            intro m hm
            refine eraseNode_id ?_
            intro u hu
            have hsub := chain'_sublist_all hchain m hm
            have hmem : f u ∈ l.map f := hsub.mem (List.mem_map_of_mem f hu)
            obtain ⟨x, hx, hfx⟩ := List.mem_map.1 hmem
            exact hfx ▸ hkey x hx
          rw [List.map_congr_left (g := id) hrest, List.map_id]

end RemoveLevel

/-! ## Remove: the full operation -/

section RemoveOp

variable {α β : Type} [LinearOrder β] {f : α → β} {v w : α}

theorem remove_absent {s : SkipList α} (h : InvF f s)
    (habs : ∀ u ∈ s.base, f u ≠ f v) :
    s.remove (keyCmp f) v = .error () := by
  rw [SkipList.remove]
  rcases hll : (s.trace (keyCmp f) v).getLast?.getD none with _ | u
  · rfl
  · have hu := lastLe_mem (trace_getLast h v ▸ hll)
    have hfne : f u ≠ f v := habs u hu.1
    simp [hfne]

theorem remove_found {s : SkipList α} (h : InvF f s) {A B : List α}
    (hsplit : s.base = A ++ w :: B) (hk : f w = f v) :
    s.remove (keyCmp f) v = .ok (w,
      { base := A ++ B
        uppers := s.uppers.map (eraseNode (keyCmp f) w)
        size := s.size - 1 }) := by
  have hpw : (A ++ w :: B).Pairwise fun a b => f a < f b := hsplit ▸ h.1
  have hA : ∀ x ∈ A, f x < f w := fun x hx =>
    (List.pairwise_append.1 hpw).2.2 x hx w (by simp)
  have hB : ∀ x ∈ B, f w < f x := fun x hx =>
    (List.pairwise_cons.1 (List.pairwise_append.1 hpw).2.1).1 x hx
  have hwmem : w ∈ s.base := hsplit ▸ (by simp)
  have hlast : lastLe f (f v) s.base = some w := hk ▸ lastLe_key_mem h.1 hwmem rfl
  have htb : (s.trace (keyCmp f) v).getLast?.getD none = some w :=
    (trace_getLast h v).trans hlast
  have hne : ((keyCmp f).ne w v) = false := by simp [hk]
  have htargets : (s.trace (keyCmp f) v).reverse =
      (s.base :: s.uppers).map (lastLe f (f w)) := by
    rw [traceRev_eq h v, hk]
  have hnp : nodePrev (keyCmp f) w s.base = A.getLast? := by
    rw [nodePrev, hsplit, takeWhile_append_all (fun x hx => by
        simp only [keyCmp_eq, Bool.not_eq_true', decide_eq_false_iff_not]
        exact ne_of_lt (hA x hx)),
      takeWhile_cons_of_neg (by simp)]
    simp
  have hkeybase : ∀ l ∈ s.base :: s.uppers, ∀ x ∈ l, f x ∈ s.base.map f := by
    intro l hl x hx
    rcases List.mem_cons.1 hl with rfl | hl
    · exact List.mem_map_of_mem f hx
    · exact (chain'_sublist_all h.2.1 l hl).mem (List.mem_map_of_mem f hx)
  have hprev : (match nodePrev (keyCmp f) w s.base with
      | none => List.replicate (s.uppers.length + 1) (none : Option α)
      | some pv => (s.trace (keyCmp f) pv).reverse) =
      (s.base :: s.uppers).map (lastLt f (f w)) := by
    rw [hnp]
    rcases hAc : A.getLast? with _ | p
    · have hAnil : A = [] := List.getLast?_eq_none_iff.1 hAc
      subst hAnil
      symm
      rw [List.eq_replicate_iff]
      refine ⟨by simp, ?_⟩
      intro o ho
      obtain ⟨l, hl, rfl⟩ := List.mem_map.1 ho
      rw [lastLt, takeWhile_nil_of_all ?_]
      · rfl
      intro x hx
      simp only [decide_eq_true_eq, not_lt]
      obtain ⟨b, hb, hfb⟩ := List.mem_map.1 (hkeybase l hl x hx)
      rw [hsplit] at hb
      simp only [List.nil_append, List.mem_cons] at hb
      rcases hb with rfl | hb
      · exact le_of_eq hfb
      · exact le_of_lt (hfb ▸ hB b hb)
    · obtain ⟨A₀, rfl⟩ := List.getLast?_eq_some_iff.1 hAc
      have hA₀ : ∀ x ∈ A₀, f x < f p :=
        fun x hx => (List.pairwise_append.1 (List.pairwise_append.1 hpw).1).2.2
          x hx p (by simp)
      have hpw2 : f p < f w := hA p (by simp)
      show (SkipList.trace (keyCmp f) s p).reverse =
        List.map (lastLt f (f w)) (s.base :: s.uppers)
      rw [traceRev_eq h p]
      refine List.map_congr_left ?_
      intro l hl
      refine congrArg List.getLast? (takeWhile_congr fun x hx => ?_)
      refine decide_eq_decide.2 ?_
      constructor
      · intro hle
        exact lt_of_le_of_lt hle hpw2
      · intro hlt
        obtain ⟨b, hb, hfb⟩ := List.mem_map.1 (hkeybase l hl x hx)
        rw [hsplit] at hb
        rw [show (A₀ ++ [p]) ++ w :: B = A₀ ++ p :: (w :: B) by simp] at hb
        rcases List.mem_append.1 hb with hb | hb
        · exact le_of_lt (hfb ▸ hA₀ b hb)
        · rcases List.mem_cons.1 hb with rfl | hb
          · exact le_of_eq hfb.symm
          · rcases List.mem_cons.1 hb with rfl | hb
            · exact absurd (hfb ▸ hlt) (lt_irrefl _)
            · exact absurd (lt_trans (hfb ▸ hlt) (hB b hb)) (lt_irrefl _)
  rw [SkipList.remove, htb]
  simp only [hne, Bool.false_eq_true, if_false]
  rw [hprev, htargets,
    unlink_loop_spec (s.base :: s.uppers) (invF_levels_sorted h) h.2.1]
  simp only [List.map_cons, List.headD_cons, List.tail_cons]
  rw [hsplit, eraseNode_decomp (fun x hx => ne_of_lt (hA x hx))]

theorem invF_remove {s t : SkipList α} (h : InvF f s) {v w : α}
    (hrem : s.remove (keyCmp f) v = .ok (w, t)) : InvF f t := by
  by_cases hex : ∃ u ∈ s.base, f u = f v
  · obtain ⟨u, hu, hk⟩ := hex
    obtain ⟨A, B, hsplit, hA, hB⟩ := mem_decomp h.1 hu
    rw [remove_found h hsplit hk] at hrem
    simp only [Except.ok.injEq, Prod.mk.injEq] at hrem
    obtain ⟨hw, ht⟩ := hrem
    subst hw
    subst ht
    refine ⟨?_, ?_, ?_⟩
    · rw [List.pairwise_append]
      refine ⟨(List.pairwise_append.1 (hsplit ▸ h.1)).1,
        (List.pairwise_cons.1 (List.pairwise_append.1 (hsplit ▸ h.1)).2.1).2,
        ?_⟩
      intro x hx y hy
      exact lt_trans (hA x hx) (hB y hy)
    · have hbase2 : A ++ B = eraseNode (keyCmp f) u s.base := by
        rw [hsplit, eraseNode_decomp (fun x hx => ne_of_lt (hA x hx))]
      rw [hbase2, show (eraseNode (keyCmp f) u s.base) ::
          s.uppers.map (eraseNode (keyCmp f) u) =
          (s.base :: s.uppers).map (eraseNode (keyCmp f) u) by simp]
      rw [List.chain'_map]
      refine (h.2.1).imp ?_
      intro a b hab
      rw [map_eraseNode, map_eraseNode]
      exact hab.eraseP
    · show s.size - 1 = (A ++ B).length
      rw [h.2.2, hsplit, List.length_append, List.length_append, List.length_cons]
      omega
  · push_neg at hex
    rw [remove_absent h hex] at hrem
    exact absurd hrem (by simp)

theorem invF_reachable {s : SkipList α} (h : ReachableF f s) : InvF f s := by
  induction h with
  | empty => exact invF_empty
  | insert s g v r _ ih => exact invF_insert ih g v r
  | remove s v w s2 _ hrem ih => exact invF_remove ih hrem

end RemoveOp

/-! ## Ceiling and floor against the brute-force view -/

section CeilFloor

variable {α : Type} [LinearOrder α]

theorem invF_id_sorted {s : SkipList α} (h : InvF id s) :
    s.base.Pairwise (· < ·) := by
  have h1 := h.1
  simpa using h1

theorem filter_of_split {p : α → Bool} {A : List α} (w : α) (D : List α)
    (hAf : ∀ x ∈ A, ¬ p x = true) :
    (A ++ w :: D).filter p = if p w then w :: D.filter p else D.filter p := by
  rw [List.filter_append, List.filter_cons, List.filter_eq_nil_iff.2 hAf,
    List.nil_append]

theorem base_decomp_of_lastLe {s : SkipList α} (h : InvF id s) {q w : α}
    (hll : lastLe id q s.base = some w) :
    ∃ A D, s.base = A ++ w :: D ∧ (∀ x ∈ A, x < w) ∧ (∀ x ∈ D, q < x) ∧ w ≤ q ∧
      towerRest (natCmp α) w s.base = D ∧
      nodePrev (natCmp α) w s.base = A.getLast? := by
  obtain ⟨A, hAtw, hdec⟩ := lastLe_decomp hll
  set D := s.base.dropWhile (fun x => decide (id x ≤ q)) with hDdef
  have hD : ∀ x ∈ D, q < x := fun x hx => by
    simpa using keys_dropWhile_gt h.1 x (hDdef ▸ hx)
  have hA : ∀ x ∈ A, x < w := by
    intro x hx
    have hpw := hdec ▸ invF_id_sorted h
    exact (List.pairwise_append.1 hpw).2.2 x hx w (by simp)
  refine ⟨A, D, hdec, hA, hD, (lastLe_mem hll).2, ?_, ?_⟩
  · rw [natCmp_def, hdec]
    exact towerRest_decomp (f := id) fun x hx => by simpa using hA x hx
  · rw [natCmp_def, nodePrev, hdec, takeWhile_append_all (fun x hx => by
        simp only [keyCmp_eq, Bool.not_eq_true', decide_eq_false_iff_not, id_eq]
        exact ne_of_lt (hA x hx)),
      takeWhile_cons_of_neg (by simp)]
    simp

theorem traceBase_id {s : SkipList α} (h : InvF id s) (q : α) :
    s.traceBase (natCmp α) q = lastLe id q s.base := by
  have htb := traceBase_eq (f := id) h q
  simpa using htb

theorem ceilNode_eq {s : SkipList α} (h : InvF id s) (q : α) (incl : Bool) :
    s.ceilNode (natCmp α) q incl = leastGe q incl s.base := by
  rw [SkipList.ceilNode, traceBase_id h]
  rcases hll : lastLe id q s.base with _ | w
  · have hgt : ∀ x ∈ s.base, q < x := fun x hx => by
      simpa using lastLe_none h.1 hll x hx
    have hfilter :
        s.base.filter (fun x => if incl then decide (q ≤ x) else decide (q < x)) =
          s.base :=
      List.filter_eq_self.2 fun x hx => by
        cases incl <;> simp [hgt x hx, le_of_lt (hgt x hx)]
    show s.base.head? = leastGe q incl s.base
    rw [leastGe, hfilter]
  · obtain ⟨A, D, hdec, hA, hD, hwq, htr, _⟩ := base_decomp_of_lastLe h hll
    have hnext : ringNext (natCmp α) s.base (some w) = D.head? := by
      show (towerRest (natCmp α) w s.base).head? = D.head?
      rw [htr]
    have hPA : ∀ x ∈ A,
        ¬ ((fun x => if incl then decide (q ≤ x) else decide (q < x)) x = true) := by
      intro x hx
      have hxq : x < q := lt_of_lt_of_le (hA x hx) hwq
      cases incl <;> simp [not_le.2 hxq, not_lt.2 (le_of_lt hxq)]
    have hDf :
        D.filter (fun x => if incl then decide (q ≤ x) else decide (q < x)) = D :=
      List.filter_eq_self.2 fun x hx => by
        cases incl <;> simp [hD x hx, le_of_lt (hD x hx)]
    have hLG : leastGe q incl s.base =
        if (if incl then decide (q ≤ w) else decide (q < w)) then some w
        else D.head? := by
      rw [leastGe, hdec, filter_of_split w D hPA]
      by_cases hpw : (if incl then decide (q ≤ w) else decide (q < w)) = true
      · rw [if_pos hpw, if_pos hpw, hDf, List.head?_cons]
      · rw [if_neg hpw, if_neg hpw, hDf]
    have hcond : ((natCmp α).eq w q && incl) =
        (if incl then decide (q ≤ w) else decide (q < w)) := by
      cases incl with
      | true =>
          simp only [natCmp_def, keyCmp_eq, id_eq, Bool.and_true]
          exact decide_eq_decide.2 ⟨fun hh => hh ▸ le_refl q, fun hh => le_antisymm hwq hh⟩
      | false =>
          simp [not_lt.2 hwq]
    show (if (natCmp α).eq w q && incl then some w
        else ringNext (natCmp α) s.base (some w)) = leastGe q incl s.base
    rw [hcond, hnext, hLG]

theorem floorNode_eq {s : SkipList α} (h : InvF id s) (q : α) (incl : Bool) :
    s.floorNode (natCmp α) q incl = greatestLe q incl s.base := by
  rw [SkipList.floorNode, traceBase_id h]
  rcases hll : lastLe id q s.base with _ | w
  · have hgt : ∀ x ∈ s.base, q < x := fun x hx => by
      simpa using lastLe_none h.1 hll x hx
    have hfilter :
        s.base.filter (fun x => if incl then decide (x ≤ q) else decide (x < q)) =
          [] :=
      List.filter_eq_nil_iff.2 fun x hx => by
        cases incl <;>
          simp [not_le.2 (hgt x hx), not_lt.2 (le_of_lt (hgt x hx))]
    show none = greatestLe q incl s.base
    rw [greatestLe, hfilter]
    rfl
  · obtain ⟨A, D, hdec, hA, hD, hwq, _, hnp⟩ := base_decomp_of_lastLe h hll
    have hAfs :
        A.filter (fun x => if incl then decide (x ≤ q) else decide (x < q)) = A :=
      List.filter_eq_self.2 fun x hx => by
        have hxq : x < q := lt_of_lt_of_le (hA x hx) hwq
        cases incl <;> simp [le_of_lt hxq, hxq]
    have hDfail : ∀ x ∈ D,
        ¬ ((fun x => if incl then decide (x ≤ q) else decide (x < q)) x = true) := by
      intro x hx
      cases incl <;>
        simp [not_le.2 (hD x hx), not_lt.2 (le_of_lt (hD x hx))]
    have hGL : greatestLe q incl s.base =
        if (if incl then decide (w ≤ q) else decide (w < q)) then some w
        else A.getLast? := by
      rw [greatestLe, hdec, List.filter_append, List.filter_cons, hAfs,
        List.filter_eq_nil_iff.2 hDfail]
      by_cases hpw : (if incl then decide (w ≤ q) else decide (w < q)) = true
      · rw [if_pos hpw, if_pos hpw, List.getLast?_concat]
      · rw [if_neg hpw, if_neg hpw, List.append_nil]
    have hcond : ((natCmp α).eq w q && !incl) =
        !(if incl then decide (w ≤ q) else decide (w < q)) := by
      cases incl with
      | true => simp [hwq]
      | false =>
          have hiff : (w = q) ↔ ¬ w < q :=
            ⟨fun hh => by simp [hh], fun hh => le_antisymm hwq (not_lt.1 hh)⟩
          simp [natCmp_def, hiff]
          rw [← decide_not]
          exact decide_eq_decide.2 not_lt.symm
    show (if (natCmp α).eq w q && !incl then nodePrev (natCmp α) w s.base
        else some w) = greatestLe q incl s.base
    rw [hcond, hnp, hGL]
    cases hpw : (if incl then decide (w ≤ q) else decide (w < q)) <;> simp

theorem ceiling_eq {s : SkipList α} (h : InvF id s) (q : α) (incl : Bool)
    (d : Option α) :
    s.ceiling (natCmp α) q incl d =
      match leastGe q incl s.base, d with
      | some m, _ => .ok m
      | none, some dv => .ok dv
      | none, none => .error () := by
  rw [SkipList.ceiling.eq_def, ceilNode_eq h]
  rcases leastGe q incl s.base with _ | m <;> rcases d with _ | dv <;> rfl

theorem floor_eq {s : SkipList α} (h : InvF id s) (q : α) (incl : Bool)
    (d : Option α) :
    s.floor (natCmp α) q incl d =
      match greatestLe q incl s.base, d with
      | some m, _ => .ok m
      | none, some dv => .ok dv
      | none, none => .error () := by
  rw [SkipList.floor.eq_def, floorNode_eq h]
  rcases greatestLe q incl s.base with _ | m <;> rcases d with _ | dv <;> rfl

end CeilFloor

/-! ## Content of a container built by repeated insertion -/

section Content

variable {α : Type} [LinearOrder α]

theorem insertEach_nil {γ : Type} (c : Cmp γ) (gens : List Nat) (s : SkipList γ) :
    insertEach c gens [] s = s := by
  cases gens <;> rfl

theorem insertEach_cons {γ : Type} (c : Cmp γ) (gens : List Nat) (v : γ)
    (vs : List γ) (s : SkipList γ) :
    insertEach c gens (v :: vs) s =
      insertEach c gens.tail vs (s.insert c (gens.headD 0) v true) := by
  cases gens <;> rfl

theorem reachable_insertEach {γ δ : Type} [LinearOrder δ] (f : γ → δ) :
    ∀ (vs : List γ) (gens : List Nat) (s : SkipList γ),
      ReachableF f s → ReachableF f (insertEach (keyCmp f) gens vs s) := by
  intro vs
  induction vs with
  | nil =>
      intro gens s h
      rw [insertEach_nil]
      exact h
  | cons v vs ih =>
      intro gens s h
      rw [insertEach_cons]
      exact ih _ _ (ReachableF.insert s _ v true h)

theorem keyInsert_perm {δ : Type} [LinearOrder δ] (f : α → δ) (v : α) (l : List α) :
    (keyInsert f v l).Perm (v :: l) := by
  rw [keyInsert]
  refine List.Perm.trans List.perm_middle ?_
  rw [List.takeWhile_append_dropWhile]

theorem insert_absent_base {s : SkipList α} (h : InvF id s) {v : α}
    (habs : ∀ u ∈ s.base, u ≠ v) (gen : Nat) (r : Bool) :
    (s.insert (natCmp α) gen v r).base = keyInsert id v s.base := by
  have habsv : ∀ u ∈ s.base, id u ≠ id v := fun u hu => by
    simpa using habs u hu
  rw [natCmp_def, insert_absent_eq_new h habsv gen r,
    insertNew_trace_spec h v gen (H := min gen (8 + log2floor (s.size + 1))) rfl]
  exact insertAfter_lastLe h.1

theorem insertEach_invF_perm :
    ∀ (vs : List α) (gens : List Nat) (s : SkipList α),
      InvF id s → (∀ x ∈ vs, x ∉ s.base) → vs.Nodup →
      InvF id (insertEach (natCmp α) gens vs s) ∧
      (insertEach (natCmp α) gens vs s).base.Perm (s.base ++ vs) := by
  intro vs
  induction vs with
  | nil =>
      intro gens s h _ _
      rw [insertEach_nil]
      exact ⟨h, by simp⟩
  | cons v vs ih =>
      intro gens s h habs hnd
      rw [insertEach_cons]
      have habsv : ∀ u ∈ s.base, u ≠ v := by
        intro u hu hequ
        exact habs v (by simp) (hequ ▸ hu)
      have hbase : (s.insert (natCmp α) (gens.headD 0) v true).base =
          keyInsert id v s.base := insert_absent_base h habsv _ true
      have hinv2 : InvF id (s.insert (natCmp α) (gens.headD 0) v true) := by
        rw [natCmp_def]
        exact invF_insert h _ v true
      have hmem2 : ∀ x ∈ vs, x ∉ (s.insert (natCmp α) (gens.headD 0) v true).base := by
        intro x hx hmem
        rw [hbase] at hmem
        have : x ∈ v :: s.base := (keyInsert_perm id v s.base).subset hmem
        rcases List.mem_cons.1 this with rfl | hxb
        · exact (List.nodup_cons.1 hnd).1 hx
        · exact habs x (by simp [hx]) hxb
      obtain ⟨hinv3, hperm⟩ :=
        ih gens.tail _ hinv2 hmem2 (List.nodup_cons.1 hnd).2
      refine ⟨hinv3, ?_⟩
      refine hperm.trans ?_
      have h1 : ((s.insert (natCmp α) (gens.headD 0) v true).base ++ vs).Perm
          ((v :: s.base) ++ vs) := by
        rw [hbase]
        exact (keyInsert_perm id v s.base).append_right vs
      refine h1.trans ?_
      rw [List.cons_append]
      exact List.perm_middle.symm

theorem pairwise_lt_of_invF {s : SkipList α} (h : InvF id s) :
    s.iter.Pairwise (· < ·) := invF_id_sorted h

theorem insertEach_empty_base (l : List α) (hnd : l.Nodup) (gens : List Nat) :
    (insertEach (natCmp α) gens l SkipList.empty).base =
      l.insertionSort (· ≤ ·) := by
  obtain ⟨hinv, hperm⟩ := insertEach_invF_perm l gens SkipList.empty
    (invF_empty (f := id)) (by simp [SkipList.empty]) hnd
  have hperm2 : (insertEach (natCmp α) gens l SkipList.empty).base.Perm l := by
    simpa [SkipList.empty] using hperm
  haveI : IsAntisymm α (· ≤ ·) := ⟨fun _ _ h1 h2 => le_antisymm h1 h2⟩
  haveI : IsTotal α (· ≤ ·) := ⟨fun a b => le_total a b⟩
  haveI : IsTrans α (· ≤ ·) := ⟨fun _ _ _ h1 h2 => le_trans h1 h2⟩
  refine List.eq_of_perm_of_sorted (r := (· ≤ ·))
    (hperm2.trans (List.perm_insertionSort (· ≤ ·) l).symm) ?_ ?_
  · exact (invF_id_sorted hinv).imp le_of_lt
  · exact List.sorted_insertionSort (· ≤ ·) l

theorem zip_self_all_eq {γ : Type} :
    ∀ (l : List γ), ∀ p ∈ l.zip l, p.1 = p.2 := by
  intro l
  induction l with
  | nil => simp
  | cons a l ih =>
      intro p hp
      rcases List.mem_cons.1 hp with rfl | hp
      · rfl
      · exact ih p hp

end Content

/-! ## Shared corollaries of the insert characterization -/

section InsertCor

variable {α : Type} [LinearOrder α]

theorem insert_absent_size {s : SkipList α} (h : InvF id s) {v : α}
    (habs : ∀ u ∈ s.base, u ≠ v) (gen : Nat) (r : Bool) :
    (s.insert (natCmp α) gen v r).size = s.size + 1 := by
  have habsv : ∀ u ∈ s.base, id u ≠ id v := fun u hu => by simpa using habs u hu
  rw [natCmp_def, insert_absent_eq_new h habsv gen r,
    insertNew_trace_spec h v gen (H := min gen (8 + log2floor (s.size + 1))) rfl]

theorem insert_absent_uppers {s : SkipList α} (h : InvF id s) {v : α}
    (habs : ∀ u ∈ s.base, u ≠ v) (gen : Nat) (r : Bool) {H : Nat}
    (hH : H = min gen (8 + log2floor (s.size + 1))) :
    (s.insert (natCmp α) gen v r).uppers =
      (((s.uppers ++ List.replicate (H - s.uppers.length) []).take H).map
        fun l => insertAfter (keyCmp id) (lastLe id (id v) l) v l) ++
      (s.uppers ++ List.replicate (H - s.uppers.length) []).drop H := by
  subst hH
  have habsv : ∀ u ∈ s.base, id u ≠ id v := fun u hu => by simpa using habs u hu
  rw [natCmp_def, insert_absent_eq_new h habsv gen r,
    insertNew_trace_spec h v gen (H := min gen (8 + log2floor (s.size + 1))) rfl]

end InsertCor

/-! ## The claims -/

/-- C1: the specification claims `range(a, b, incl_start, incl_end)` returns
normally for every `a` and `b`, yielding the brute-force filter of the sorted
content (the empty sequence when nothing qualifies).  The code violates this:
on the container `SkipList([1, 2])` the call `range(5, 1)` resolves `start`
to the boundary sentinel while the resolved `end` is a real node, so the
guard `gt(start.value, end.value)` compares the sentinel object with `1` and
raises `TypeError` — modelled as `none` — where the claim demands the empty
sequence (as the brute-force filter confirms). -/
theorem c1_range_sentinel_comparison_raises :
    exTwo.range (natCmp Int) 5 1 true false = none ∧
    exTwo.iter.filter (fun x => decide (5 ≤ x) && decide (x < 1)) = [] := by
  constructor
  · decide
  · decide

/-- C2: inserting any duplicate-free finite sequence of comparable values, in
any order and with any generated tower heights, yields a container whose
ascending iteration is the sorted sequence and whose reversed iteration is
the sorted sequence reversed. -/
theorem c2_iterate_sorted {α : Type} [LinearOrder α] (l : List α)
    (hnd : l.Nodup) (gens : List Nat) :
    (insertEach (natCmp α) gens l SkipList.empty).iter =
      l.insertionSort (· ≤ ·) ∧
    (insertEach (natCmp α) gens l SkipList.empty).reversedIter =
      (l.insertionSort (· ≤ ·)).reverse := by
  have hb := insertEach_empty_base l hnd gens
  exact ⟨hb, by rw [SkipList.reversedIter, hb]⟩

/-- C2 witness: the spec scenario `[3, 2, 1, 4]` iterates as `[1, 2, 3, 4]`
and reverses as `[4, 3, 2, 1]`. -/
theorem c2_iterate_sorted_witness :
    ([3, 2, 1, 4] : List Int).Nodup ∧
    (insertEach (natCmp Int) [1, 0, 2, 0] [3, 2, 1, 4] SkipList.empty).iter =
      [1, 2, 3, 4] ∧
    (insertEach (natCmp Int) [1, 0, 2, 0] [3, 2, 1, 4] SkipList.empty).reversedIter =
      [4, 3, 2, 1] := by
  have h := c2_iterate_sorted ([3, 2, 1, 4] : List Int) (by decide) [1, 0, 2, 0]
  refine ⟨by decide, ?_, ?_⟩
  · rw [h.1]
    decide
  · rw [h.2]
    decide

/-- C3: on an invariant-satisfying container, `ceiling(k, inclusive)` and
`floor(k, inclusive)` match the brute-force filters of the sorted content
(smallest `≥ k` / `> k`, largest `≤ k` / `< k`) for every `k` and both
inclusivity flags; when no element qualifies the supplied default is
returned, and without a default the call fails (`LookupError`). -/
theorem c3_ceiling_floor_bruteforce {α : Type} [LinearOrder α]
    {s : SkipList α} (h : InvF id s) (k : α) (incl : Bool) (d : Option α) :
    s.ceiling (natCmp α) k incl d =
      (match leastGe k incl s.iter, d with
       | some m, _ => .ok m
       | none, some dv => .ok dv
       | none, none => .error ()) ∧
    s.floor (natCmp α) k incl d =
      (match greatestLe k incl s.iter, d with
       | some m, _ => .ok m
       | none, some dv => .ok dv
       | none, none => .error ()) :=
  ⟨ceiling_eq h k incl d, floor_eq h k incl d⟩

/-- C3 witness: the estimation scenario `[-2, 1, 7, 14, 55, 972]`. -/
theorem c3_ceiling_floor_bruteforce_witness :
    InvF id exEstim ∧
    exEstim.ceiling (natCmp Int) 9 true none = .ok 14 ∧
    exEstim.floor (natCmp Int) 9 true none = .ok 7 ∧
    exEstim.ceiling (natCmp Int) 14 false none = .ok 55 ∧
    exEstim.floor (natCmp Int) 14 false none = .ok 7 ∧
    exEstim.ceiling (natCmp Int) 2000 true none = .error () ∧
    exEstim.ceiling (natCmp Int) 2000 true (some 5) = .ok 5 := by
  have hInv : InvF id exEstim :=
    invF_reachable (reachable_insertEach id _ _ _ ReachableF.empty)
  refine ⟨hInv, ?_, ?_, ?_, ?_, ?_, ?_⟩
  · rw [(c3_ceiling_floor_bruteforce hInv 9 true none).1]
    decide
  · rw [(c3_ceiling_floor_bruteforce hInv 9 true none).2]
    decide
  · rw [(c3_ceiling_floor_bruteforce hInv 14 false none).1]
    decide
  · rw [(c3_ceiling_floor_bruteforce hInv 14 false none).2]
    decide
  · rw [(c3_ceiling_floor_bruteforce hInv 2000 true none).1]
    decide
  · rw [(c3_ceiling_floor_bruteforce hInv 2000 true (some 5)).1]
    decide

/-- C5: inserting a value comparator-equal to a stored element overwrites the
stored value in place when `replacing` is true and leaves it unchanged when
`replacing` is false; in both cases the call changes nothing else — the
position, the upper levels, and the size are untouched. -/
theorem c5_replacing {γ δ : Type} [LinearOrder δ] (f : γ → δ) {s : SkipList γ}
    (h : InvF f s) {v w : γ} {A B : List γ}
    (hsplit : s.iter = A ++ w :: B) (hk : f w = f v) (gen : Nat) :
    s.insert (keyCmp f) gen v true = { s with base := A ++ v :: B } ∧
    s.insert (keyCmp f) gen v false = s :=
  insert_found h hsplit hk gen

/-- C5 witness: a keyed pair container; inserting `(2, 99)` over `(2, 20)`
overwrites with `replacing` and is a no-op without. -/
theorem c5_replacing_witness :
    InvF (Prod.fst : Int × Int → Int) exPair ∧
    exPair.insert (keyCmp (Prod.fst : Int × Int → Int)) 0 (2, 99) true =
      { exPair with base := [(1, 10)] ++ (2, 99) :: [] } ∧
    exPair.insert (keyCmp (Prod.fst : Int × Int → Int)) 0 (2, 99) false =
      exPair := by
  have hInv : InvF (Prod.fst : Int × Int → Int) exPair :=
    invF_reachable (reachable_insertEach Prod.fst _ _ _ ReachableF.empty)
  have h := c5_replacing Prod.fst hInv (v := ((2 : Int), (99 : Int)))
    (w := ((2 : Int), (20 : Int))) (A := [((1 : Int), (10 : Int))]) (B := [])
    (by decide) (by decide) 0
  exact ⟨hInv, h.1, h.2⟩

/-- C6: `remove(key)` fails precisely when no stored element is
comparator-equal to the key; when an equal element is stored, `remove`
unlinks its node at every level it occupies, decrements the size by one and
returns the removed stored value. -/
theorem c6_remove_spec {γ δ : Type} [LinearOrder δ] (f : γ → δ)
    {s : SkipList γ} (h : InvF f s) (v : γ) :
    (s.remove (keyCmp f) v = .error () ↔ ∀ u ∈ s.iter, f u ≠ f v) ∧
    (∀ (A B : List γ) (u : γ), s.iter = A ++ u :: B → f u = f v →
      s.remove (keyCmp f) v = .ok (u,
        { base := A ++ B
          uppers := s.uppers.map (eraseNode (keyCmp f) u)
          size := s.size - 1 })) := by
  constructor
  · constructor
    · intro herr u hu hk
      obtain ⟨A, B, hsplit, _, _⟩ := mem_decomp h.1 hu
      rw [remove_found h hsplit hk] at herr
      exact absurd herr (by simp)
    · intro habs
      exact remove_absent h habs
  · intro A B u hsplit hk
    exact remove_found h hsplit hk

/-- C6 witness: the container `[1, 2, 3, 4]`; removing `5` fails, removing
`3` unlinks it from every level, returns it and decrements the size. -/
theorem c6_remove_spec_witness :
    InvF id exFour ∧
    exFour.remove (natCmp Int) 5 = .error () ∧
    exFour.remove (natCmp Int) 3 = .ok (3,
      { base := [1, 2] ++ [4]
        uppers := exFour.uppers.map (eraseNode (natCmp Int) 3)
        size := exFour.size - 1 }) := by
  have hInv : InvF id exFour :=
    invF_reachable (reachable_insertEach id _ _ _ ReachableF.empty)
  refine ⟨hInv, ?_, ?_⟩
  · exact (c6_remove_spec id hInv 5).1.2 (by decide)
  · exact (c6_remove_spec id hInv 3).2 [1, 2] [4] 3 (by decide) (by decide)

/-- C9: every container reachable from a fresh one by inserts and removes
satisfies the structural invariants: within every level the keys strictly
increase along forward links, every element's tower is contiguous from the
base level upward (each level's keys form a sublist of the level below), and
the recorded size counts the base nodes. -/
theorem c9_invariants {γ δ : Type} [LinearOrder δ] (f : γ → δ)
    {s : SkipList γ} (h : ReachableF f s) :
    (∀ lvl ∈ s.base :: s.uppers, lvl.Pairwise fun a b => f a < f b) ∧
    List.Chain' (fun lo up => (up.map f).Sublist (lo.map f))
      (s.base :: s.uppers) ∧
    s.size = s.base.length := by
  have hInv := invF_reachable h
  exact ⟨invF_levels_sorted hInv, hInv.2.1, hInv.2.2⟩

/-- C9 witness: the reachable container `[1, 2, 3, 4]` satisfies the
invariants. -/
theorem c9_invariants_witness :
    (∀ lvl ∈ exFour.base :: exFour.uppers,
      lvl.Pairwise fun a b => id a < id b) ∧
    List.Chain' (fun lo up => (up.map id).Sublist (lo.map id))
      (exFour.base :: exFour.uppers) ∧
    exFour.size = exFour.base.length :=
  c9_invariants id (reachable_insertEach id _ _ _ ReachableF.empty)

/-- C4: insert of a previously-absent value gives the new element a tower
spanning exactly levels `0..H`, where `H` is the generated height clamped to
`8 + floor(log2(size + 1))` with `size` the PRE-insertion size; `H` never
exceeds that cap (and the model's `log2floor` is the floor of the base-2
logarithm, `Nat.log 2`). -/
theorem c4_tower_height {α : Type} [LinearOrder α] {s : SkipList α}
    (h : InvF id s) {v : α} (habs : v ∉ s.iter) (gen : Nat) (r : Bool)
    {H : Nat} (hH : H = min gen (8 + log2floor (s.size + 1))) :
    v ∈ (s.insert (natCmp α) gen v r).iter ∧
    (∀ lvl ∈ (s.insert (natCmp α) gen v r).uppers.take H, v ∈ lvl) ∧
    (∀ lvl ∈ (s.insert (natCmp α) gen v r).uppers.drop H, v ∉ lvl) ∧
    (s.insert (natCmp α) gen v r).uppers.length = max s.uppers.length H ∧
    H ≤ 8 + log2floor (s.size + 1) ∧
    log2floor (s.size + 1) = Nat.log 2 (s.size + 1) := by
  have habs2 : ∀ u ∈ s.base, u ≠ v := fun u hu he => habs (he ▸ hu)
  have hbase := insert_absent_base h habs2 gen r
  have hup := insert_absent_uppers h habs2 gen r hH
  have hlenE : H ≤ (s.uppers ++ List.replicate (H - s.uppers.length)
      ([] : List α)).length := by
    rw [List.length_append, List.length_replicate]
    omega
  have hMlen : (((s.uppers ++ List.replicate (H - s.uppers.length) []).take H).map
      fun l => insertAfter (keyCmp id) (lastLe id (id v) l) v l).length = H := by
    rw [List.length_map, List.length_take]
    omega
  have hsortE : ∀ l ∈ s.uppers ++ List.replicate (H - s.uppers.length)
      ([] : List α), l.Pairwise fun a b => id a < id b := by
    intro l hl
    rcases List.mem_append.1 hl with hl | hl
    · exact invF_levels_sorted h l (by simp [hl])
    · have hnil : l = [] := List.eq_of_mem_replicate hl
      simp [hnil]
  refine ⟨?_, ?_, ?_, ?_, by rw [hH]; exact min_le_right _ _, log2floor_eq_log _⟩
  · show v ∈ (s.insert (natCmp α) gen v r).base
    rw [hbase, keyInsert]
    exact List.mem_append.2 (Or.inr (by simp))
  · intro lvl hlvl
    rw [hup, List.take_left' hMlen] at hlvl
    obtain ⟨l, hl, rfl⟩ := List.mem_map.1 hlvl
    rw [insertAfter_lastLe (hsortE l ((List.take_sublist _ _).mem hl)), keyInsert]
    exact List.mem_append.2 (Or.inr (by simp))
  · intro lvl hlvl hv
    rw [hup, List.drop_left' hMlen] at hlvl
    have hlE := (List.drop_sublist _ _).mem hlvl
    rcases List.mem_append.1 hlE with hl | hl
    · exact upper_keys_absent h (fun u hu => by simpa using habs2 u hu) lvl
        (by simp [hl]) v hv rfl
    · have hnil : lvl = [] := List.eq_of_mem_replicate hl
      rw [hnil] at hv
      simp at hv
  · rw [hup, List.length_append, hMlen, List.length_drop, List.length_append,
      List.length_replicate]
    omega

/-- C4 witness: inserting `10` with generated height 20 into `[1, 2]` clamps
the tower to the cap `H = 9`. -/
theorem c4_tower_height_witness :
    InvF id exTwo ∧ (10 : Int) ∉ exTwo.iter ∧
    (9 : Nat) = min 20 (8 + log2floor (exTwo.size + 1)) ∧
    (10 : Int) ∈ (exTwo.insert (natCmp Int) 20 10 true).iter ∧
    (∀ lvl ∈ (exTwo.insert (natCmp Int) 20 10 true).uppers.take 9,
      (10 : Int) ∈ lvl) ∧
    (∀ lvl ∈ (exTwo.insert (natCmp Int) 20 10 true).uppers.drop 9,
      (10 : Int) ∉ lvl) ∧
    (exTwo.insert (natCmp Int) 20 10 true).uppers.length =
      max exTwo.uppers.length 9 := by
  have hInv : InvF id exTwo :=
    invF_reachable (reachable_insertEach id _ _ _ ReachableF.empty)
  have habs : (10 : Int) ∉ exTwo.iter := by decide
  have h := c4_tower_height hInv habs 20 true (H := 9) (by decide)
  exact ⟨hInv, habs, by decide, h.1, h.2.1, h.2.2.1, h.2.2.2.1⟩

/-! ## Positional access -/

section Positional

variable {α : Type} [LinearOrder α]

theorem iloc_nonneg {s : SkipList α} {i : Int} (h0 : 0 ≤ i)
    (h1 : i < (s.size : Int)) : s.iloc i = s.base.get? i.toNat := by
  simp only [SkipList.iloc]
  have hj : (if i < 0 then i + (s.size : Int) else i) = i := if_neg (not_lt.2 h0)
  rw [hj, if_neg (by omega)]

theorem iloc_neg {s : SkipList α} {i : Int} (h0 : -(s.size : Int) ≤ i)
    (h1 : i < 0) : s.iloc i = s.base.get? (i + s.size).toNat := by
  simp only [SkipList.iloc]
  have hj : (if i < 0 then i + (s.size : Int) else i) = i + s.size := if_pos h1
  rw [hj, if_neg (by omega)]

theorem iloc_out {s : SkipList α} {i : Int}
    (hout : i < -(s.size : Int) ∨ (s.size : Int) ≤ i) : s.iloc i = none := by
  simp only [SkipList.iloc]
  rcases hout with hout | hout
  · have hj : (if i < 0 then i + (s.size : Int) else i) = i + s.size :=
      if_pos (by omega)
    rw [hj, if_pos (by omega)]
  · have hj : (if i < 0 then i + (s.size : Int) else i) = i :=
      if_neg (by omega)
    rw [hj, if_pos (by omega)]

theorem remove_at_index {s : SkipList α} (h : InvF id s) {jn : Nat}
    (hjn : jn < s.base.length) :
    s.remove (natCmp α) (s.base.get ⟨jn, hjn⟩) = .ok (s.base.get ⟨jn, hjn⟩,
      { base := s.base.eraseIdx jn
        uppers := s.uppers.map (eraseNode (natCmp α) (s.base.get ⟨jn, hjn⟩))
        size := s.size - 1 }) := by
  have hsplit : s.base =
      s.base.take jn ++ s.base.get ⟨jn, hjn⟩ :: s.base.drop (jn + 1) := by
    conv_lhs => rw [← List.take_append_drop jn s.base]
    rw [List.drop_eq_getElem_cons hjn, List.get_eq_getElem]
  have hrem := remove_found (f := id) (v := s.base.get ⟨jn, hjn⟩) h hsplit rfl
  rw [natCmp_def, hrem, List.eraseIdx_eq_take_drop_succ]

end Positional

/-- C7: `get_at(i)` returns the element at sorted position `i` for
`0 ≤ i < size`; a negative `i` in `[-size, 0)` wraps from the end; any index
outside `[-size, size)` fails with `OutOfRangeError`; and `delete_at(i)` with
an in-range index removes exactly the element at the resolved sorted
position, returning it and decrementing the size. -/
theorem c7_positional {α : Type} [LinearOrder α] {s : SkipList α}
    (h : InvF id s) (i : Int) :
    (0 ≤ i → i < (s.size : Int) →
      ∃ v, s.iter.get? i.toNat = some v ∧ s.getItem i = .ok v) ∧
    (-(s.size : Int) ≤ i → i < 0 →
      ∃ v, s.iter.get? (i + s.size).toNat = some v ∧ s.getItem i = .ok v) ∧
    ((i < -(s.size : Int) ∨ (s.size : Int) ≤ i) → s.getItem i = .error ()) ∧
    (0 ≤ i → i < (s.size : Int) →
      ∃ v t, s.delItem (natCmp α) i = .ok (v, t) ∧
        s.iter.get? i.toNat = some v ∧
        t.iter = s.iter.eraseIdx i.toNat ∧ t.size = s.size - 1) ∧
    (-(s.size : Int) ≤ i → i < 0 →
      ∃ v t, s.delItem (natCmp α) i = .ok (v, t) ∧
        s.iter.get? (i + s.size).toNat = some v ∧
        t.iter = s.iter.eraseIdx (i + s.size).toNat ∧ t.size = s.size - 1) := by
  have hlen : s.size = s.base.length := h.2.2
  refine ⟨?_, ?_, ?_, ?_, ?_⟩
  · intro h0 h1
    have hjn : i.toNat < s.base.length := by omega
    refine ⟨s.base.get ⟨i.toNat, hjn⟩, List.get?_eq_get hjn, ?_⟩
    simp only [SkipList.getItem]
    rw [if_neg (by omega), iloc_nonneg h0 h1, List.get?_eq_get hjn]
  · intro h0 h1
    have hjn : (i + s.size).toNat < s.base.length := by omega
    refine ⟨s.base.get ⟨(i + s.size).toNat, hjn⟩, List.get?_eq_get hjn, ?_⟩
    simp only [SkipList.getItem]
    rw [if_neg (by omega), iloc_neg h0 h1, List.get?_eq_get hjn]
  · intro hout
    simp only [SkipList.getItem]
    rw [if_pos hout]
  · intro h0 h1
    have hjn : i.toNat < s.base.length := by omega
    refine ⟨s.base.get ⟨i.toNat, hjn⟩,
      { base := s.base.eraseIdx i.toNat
        uppers := s.uppers.map (eraseNode (natCmp α) (s.base.get ⟨i.toNat, hjn⟩))
        size := s.size - 1 }, ?_, List.get?_eq_get hjn, rfl, rfl⟩
    simp only [SkipList.delItem]
    rw [iloc_nonneg h0 h1, List.get?_eq_get hjn]
    exact remove_at_index h hjn
  · intro h0 h1
    have hjn : (i + s.size).toNat < s.base.length := by omega
    refine ⟨s.base.get ⟨(i + s.size).toNat, hjn⟩,
      { base := s.base.eraseIdx (i + s.size).toNat
        uppers := s.uppers.map
          (eraseNode (natCmp α) (s.base.get ⟨(i + s.size).toNat, hjn⟩))
        size := s.size - 1 }, ?_, List.get?_eq_get hjn, rfl, rfl⟩
    simp only [SkipList.delItem]
    rw [iloc_neg h0 h1, List.get?_eq_get hjn]
    exact remove_at_index h hjn

/-- C7 witness: on `[1, 2, 3, 4]`, `get_at(2)` is `3`, `get_at(-1)` is `4`,
`get_at(7)` fails, and `delete_at(2)` removes `3` leaving `[1, 2, 4]`. -/
theorem c7_positional_witness :
    InvF id exFour ∧
    (∃ v, exFour.iter.get? (2 : Int).toNat = some v ∧
      exFour.getItem 2 = .ok v) ∧
    (∃ v, exFour.iter.get? ((-1 : Int) + exFour.size).toNat = some v ∧
      exFour.getItem (-1) = .ok v) ∧
    exFour.getItem 7 = .error () ∧
    (∃ v t, exFour.delItem (natCmp Int) 2 = .ok (v, t) ∧
      exFour.iter.get? (2 : Int).toNat = some v ∧
      t.iter = exFour.iter.eraseIdx (2 : Int).toNat ∧
      t.size = exFour.size - 1) := by
  have hInv : InvF id exFour :=
    invF_reachable (reachable_insertEach id _ _ _ ReachableF.empty)
  have h2 := c7_positional hInv 2
  have hm1 := c7_positional hInv (-1)
  have h7 := c7_positional hInv 7
  exact ⟨hInv, h2.1 (by decide) (by decide), hm1.2.1 (by decide) (by decide),
    h7.2.2.1 (Or.inr (by decide)), h2.2.2.2.1 (by decide) (by decide)⟩

/-- C8: inserting a previously-absent value and then removing it restores
the container's size and ascending content exactly. -/
theorem c8_insert_remove_roundtrip {α : Type} [LinearOrder α] {s : SkipList α}
    (h : InvF id s) {v : α} (habs : v ∉ s.iter) (gen : Nat) (r : Bool) :
    ∃ t, (s.insert (natCmp α) gen v r).remove (natCmp α) v = .ok (v, t) ∧
      t.iter = s.iter ∧ t.size = s.size := by
  have habs2 : ∀ u ∈ s.base, u ≠ v := fun u hu he => habs (he ▸ hu)
  have hbase := insert_absent_base h habs2 gen r
  have hsize := insert_absent_size h habs2 gen r
  have hinv2 : InvF id (s.insert (natCmp α) gen v r) := by
    rw [natCmp_def]
    exact invF_insert h gen v r
  have hsplit : (s.insert (natCmp α) gen v r).base =
      (s.base.takeWhile fun x => decide (id x ≤ id v)) ++ v ::
        (s.base.dropWhile fun x => decide (id x ≤ id v)) := by
    rw [hbase, keyInsert]
  have hrem := remove_found (f := id) (v := v) hinv2 hsplit rfl
  refine ⟨_, by rw [natCmp_def]; exact hrem, ?_, ?_⟩
  · show (s.base.takeWhile fun x => decide (id x ≤ id v)) ++
        (s.base.dropWhile fun x => decide (id x ≤ id v)) = s.iter
    exact List.takeWhile_append_dropWhile _ _
  · show (s.insert (natCmp α) gen v r).size - 1 = s.size
    rw [hsize]
    omega

/-- C8 witness: inserting `5` into `[1, 2, 3, 4]` and removing it restores
the content `[1, 2, 3, 4]` and the size `4`. -/
theorem c8_insert_remove_roundtrip_witness :
    InvF id exFour ∧ (5 : Int) ∉ exFour.iter ∧
    ∃ t, (exFour.insert (natCmp Int) 2 5 true).remove (natCmp Int) 5 =
        .ok (5, t) ∧ t.iter = exFour.iter ∧ t.size = exFour.size := by
  have hInv : InvF id exFour :=
    invF_reachable (reachable_insertEach id _ _ _ ReachableF.empty)
  have habs : (5 : Int) ∉ exFour.iter := by decide
  exact ⟨hInv, habs, c8_insert_remove_roundtrip hInv habs 2 true⟩

/-- C10: `copy()` rebuilds the container from its ascending iteration with
the DEFAULT natural-order comparator and the default random height generator
instead of the original's; hence a container built with a reversed-order
comparator is not preserved (content order and `__eq__` both change), while
any natural-order container is preserved exactly. -/
theorem c10_copy_default_comparator {s : SkipList Int} (h : InvF id s)
    (gens : List Nat) :
    exRev.iter = [2, 1] ∧
    (exRev.copy [0, 0]).iter = [1, 2] ∧
    skEq (exRev.copy [0, 0]) exRev = false ∧
    (s.copy gens).iter = s.iter ∧
    skEq (s.copy gens) s = true := by
  have hnd : s.iter.Nodup := (invF_id_sorted h).imp ne_of_lt
  have hiter : (s.copy gens).iter = s.iter := by
    have hcb := insertEach_empty_base s.iter hnd gens
    haveI : IsTotal Int (· ≤ ·) := ⟨fun a b => le_total a b⟩
    haveI : IsTrans Int (· ≤ ·) := ⟨fun _ _ _ h1 h2 => le_trans h1 h2⟩
    have hs : s.iter.insertionSort (· ≤ ·) = s.iter :=
      List.Sorted.insertionSort_eq ((invF_id_sorted h).imp le_of_lt)
    exact hcb.trans hs
  have hszc : (s.copy gens).size = s.size := by
    have hinvc := (insertEach_invF_perm s.iter gens SkipList.empty
      (invF_empty (f := id)) (by simp [SkipList.empty]) hnd).1
    have h1 : (s.copy gens).size = (s.copy gens).base.length := hinvc.2.2
    rw [h1]
    have h2 : (s.copy gens).base = s.base := hiter
    rw [h2, ← h.2.2]
  refine ⟨by decide, by decide, by decide, hiter, ?_⟩
  rw [skEq, hszc]
  simp only [beq_self_eq_true, Bool.true_and]
  rw [show (s.copy gens).iter = s.iter from hiter]
  rw [List.all_eq_true]
  intro p hp
  have := zip_self_all_eq s.iter p hp
  simpa using this

/-- C10 witness: copying the natural-order container `[1, 2, 3, 4]`
preserves content and equality. -/
theorem c10_copy_default_comparator_witness :
    InvF id exFour ∧ skEq (exFour.copy [0, 0, 0, 0]) exFour = true := by
  have hInv : InvF id exFour :=
    invF_reachable (reachable_insertEach id _ _ _ ReachableF.empty)
  exact ⟨hInv, (c10_copy_default_comparator hInv [0, 0, 0, 0]).2.2.2.2⟩
